import Mathlib

set_option autoImplicit false

/-
  Verification development for the account-manager plugin.

  Shallow embedding of the core subsystems:
  * `Api`    — the credential-store chain (`acct_mgr/api.py`, class `AccountManager`).
  * `Htfile` — the file-backed credential store (`acct_mgr/htfile.py`).
  * `Model`  — the identity-rename engine and session/attribute model
               (`acct_mgr/model.py`).

  Python's tri-state verify outcome (`True` / `False` / `None`) is embedded as
  `Option Bool` (`some true` / `some false` / `none`).  Python strings at the
  chain level are `String`; file contents are modelled as `List Char` so that
  line splitting can be reasoned about directly.
-/

namespace AcctMgr

namespace Api

/-- Python truthiness of a tri-state verify outcome: only `True` is truthy
(`False` and `None` are both falsy). -/
def truthy : Option Bool → Bool
  | some true => true
  | _ => false

/-- A configured password store, as the chain sees it: its enumerable users
(`get_users`), its `check_password` behaviour, whether it has the optional
`set_password` / `delete_user` attributes (duck-typed capability), and the
result its `set_password` would return.  The `name` field stands for object
identity, used to observe which store an operation was routed to. -/
structure Store where
  name : String
  users : List String
  check : String → String → Option Bool
  hasSet : Bool
  hasDelete : Bool
  setResult : String → String → Bool → Bool

/-- `AccountManager.handle_username_casing` (api.py:362-369):
`return ignore_auth_case and user.lower() or user`. -/
def handle_username_casing (ignoreAuthCase : Bool) (user : String) : String :=
  if ignoreAuthCase ∧ user.toLower ≠ "" then user.toLower else user

/-- The loop of `AccountManager.check_password` (api.py:286-293): each
iteration overwrites `valid` with the store's verdict and breaks only when
that verdict is truthy (i.e. `True`). -/
def checkLoop (u p : String) : List Store → Option Bool → Option Bool
  | [], valid => valid
  | s :: rest, _ =>
    let valid := s.check u p
    if truthy valid then valid else checkLoop u p rest valid

/-- `AccountManager.check_password` (api.py:283-294).  `valid` starts as
`False`; the hash-refresh hook inside the loop does not alter the returned
value, so it is elided here (see `check_password_run` for the stateful
version). -/
def check_password (ic : Bool) (stores : List Store) (user password : String) :
    Option Bool :=
  checkLoop (handle_username_casing ic user) password stores (some false)

/-- Modelled from the spec's words, for comparison with `check_password`
(refinement check only, not translated from the source): the result of the
first store in order with a definite (`Valid`/`Invalid`) verdict; `Unknown`
when every store is `Unknown`. -/
def specFirstDefinite (u p : String) : List Store → Option Bool
  | [] => none
  | s :: rest =>
    match s.check u p with
    | some b => some b
    | none => specFirstDefinite u p rest

/-- A store that holds no users and rejects every password (`check_password`
returns `False`). -/
def storeInvalid : Store :=
  ⟨"invalid", [], fun _ _ => some false, false, false, fun _ _ _ => false⟩

/-- A store that accepts every password (`check_password` returns `True`). -/
def storeValid : Store :=
  ⟨"valid", [], fun _ _ => some true, false, false, fun _ _ _ => false⟩

/-- A store that knows nobody (`check_password` returns `None`). -/
def storeUnknown : Store :=
  ⟨"unknown", [], fun _ _ => none, false, false, fun _ _ _ => false⟩

theorem truthy_eq_true_iff {x : Option Bool} : truthy x = true ↔ x = some true := by
  cases x with
  | none => simp [truthy]
  | some b => cases b <;> simp [truthy]

theorem checkLoop_of_not_valid (u p : String) :
    ∀ (l : List Store) (v : Option Bool), (∀ s ∈ l, s.check u p ≠ some true) →
      checkLoop u p l v = (l.getLast?).elim v (fun s => s.check u p) := by
  intro l
  induction l with
  | nil => intro v _; simp [checkLoop]
  | cons s rest ih =>
    intro v h
    have hs : s.check u p ≠ some true := h s (List.mem_cons_self s rest)
    have ht : truthy (s.check u p) = false := by
      cases hv : truthy (s.check u p)
      · rfl
      · exact absurd (truthy_eq_true_iff.mp hv) hs
    simp only [checkLoop, ht, Bool.false_eq_true, if_false]
    rw [ih (s.check u p) (fun t htmem => h t (List.mem_cons_of_mem s htmem))]
    cases rest with
    | nil => simp
    | cons t ts =>
      cases hl : (t :: ts).getLast? with
      | none => simp at hl
      | some x => simp [List.getLast?_cons_cons, hl]

theorem checkLoop_of_exists_valid (u p : String) :
    ∀ (l : List Store) (v : Option Bool), (∃ s ∈ l, s.check u p = some true) →
      checkLoop u p l v = some true := by
  intro l
  induction l with
  | nil => intro v h; exact absurd h (by simp)
  | cons s rest ih =>
    intro v h
    by_cases hs : s.check u p = some true
    · simp only [checkLoop]
      rw [hs]
      simp [truthy]
    · have ht : truthy (s.check u p) = false := by
        cases hv : truthy (s.check u p)
        · rfl
        · exact absurd (truthy_eq_true_iff.mp hv) hs
      obtain ⟨t, htmem, htval⟩ := h
      have htrest : t ∈ rest := by
        rcases List.mem_cons.mp htmem with h1 | h2
        · exact absurd (h1 ▸ htval) hs
        · exact h2
      simp only [checkLoop, ht, Bool.false_eq_true, if_false]
      exact ih (s.check u p) ⟨t, htrest, htval⟩

theorem checkLoop_valid_of_eq_true (u p : String) :
    ∀ (l : List Store) (v : Option Bool), v ≠ some true →
      checkLoop u p l v = some true → ∃ s ∈ l, s.check u p = some true := by
  intro l
  induction l with
  | nil => intro v hv h; exact absurd h hv
  | cons s rest ih =>
    intro v _ h
    by_cases hs : s.check u p = some true
    · exact ⟨s, List.mem_cons_self s rest, hs⟩
    · have ht : truthy (s.check u p) = false := by
        cases hv : truthy (s.check u p)
        · rfl
        · exact absurd (truthy_eq_true_iff.mp hv) hs
      simp only [checkLoop, ht, Bool.false_eq_true, if_false] at h
      obtain ⟨t, htmem, htval⟩ := ih (s.check u p) hs h
      exact ⟨t, List.mem_cons_of_mem s htmem, htval⟩

/-- Claim C1 (counterexample): with a first store answering `Invalid` and a
second store answering `Valid`, the chain returns `Valid` — the first store's
definite `Invalid` verdict is overridden by the later store, contradicting the
claimed ordering-precedence law (whose value here would be `Invalid`). -/
theorem C1_counterexample :
    check_password false [storeInvalid, storeValid] "u" "p" = some true ∧
      specFirstDefinite (handle_username_casing false "u") "p"
        [storeInvalid, storeValid] = some false := by
  constructor <;> rfl

/-- Claim C1 (amended): for every non-empty configured store ordering and
every `(uid, password)`, `AccountManager.check_password` returns `Valid` iff
some store returns `Valid`; a store returning `Invalid` (`False`) does NOT
terminate the chain — like `Unknown` it lets evaluation fall through — and
when no store returns `Valid` the chain result is the verdict of the LAST
store in order (in particular `Unknown` when every store returns `Unknown`). -/
theorem C1_check_password_first_valid_wins (ic : Bool) (stores : List Store)
    (user password : String) (h : stores ≠ []) :
    (check_password ic stores user password = some true ↔
      ∃ s ∈ stores,
        s.check (handle_username_casing ic user) password = some true) ∧
    ((∀ s ∈ stores,
        s.check (handle_username_casing ic user) password ≠ some true) →
      check_password ic stores user password =
        (stores.getLast h).check (handle_username_casing ic user) password) := by
  constructor
  · constructor
    · intro hrun
      exact checkLoop_valid_of_eq_true _ _ stores (some false) (by simp) hrun
    · intro hex
      exact checkLoop_of_exists_valid _ _ stores (some false) hex
  · intro hall
    unfold check_password
    rw [checkLoop_of_not_valid _ _ stores (some false) hall]
    rw [List.getLast?_eq_getLast stores h]
    simp

/-- Witness for the amended C1 theorem: a single all-`Unknown` store makes the
chain return `Unknown`. -/
theorem C1_check_password_first_valid_wins_witness :
    check_password false [storeUnknown] "u" "p" = none := by
  have h := C1_check_password_first_valid_wins false [storeUnknown] "u" "p"
    (by simp)
  have hall : ∀ s ∈ [storeUnknown],
      s.check (handle_username_casing false "u") "p" ≠ some true := by
    intro s hs
    rw [List.mem_singleton] at hs
    subst hs
    simp [storeUnknown]
  have := h.2 hall
  simpa [storeUnknown] using this

/-- The loop of `AccountManager.get_supporting_store` (api.py:325-331):
`store` retains the last examined store; `supports` is set when one has the
requested attribute, breaking the loop. -/
def get_supporting_store_go (hasOp : Store → Bool) :
    List Store → Option Store → Bool → Option Store × Bool
  | [], store, supports => (store, supports)
  | s :: rest, _, _ =>
    if hasOp s then (some s, true)
    else get_supporting_store_go hasOp rest (some s) false

/-- `AccountManager.get_supporting_store` (api.py:320-333); the capability
probe `hasattr(store, operation)` is the `hasOp` projection
(`Store.hasSet` for the operation named set_password).  The final
`supports and store or None` collapses to the store found, or `none`. -/
def get_supporting_store (hasOp : Store → Bool) (stores : List Store) :
    Option Store :=
  let r := get_supporting_store_go hasOp stores none false
  if r.2 then r.1 else none

/-- `AccountManager.find_user_store` (api.py:344-360): the first store in
order whose `get_users()` enumeration contains the (case-normalized) user. -/
def find_user_store (ic : Bool) (stores : List Store) (user : String) :
    Option Store :=
  let u := handle_username_casing ic user
  stores.find? (fun s => s.users.contains u)

/-- The errors `AccountManager.set_password` can raise (api.py:254-257,
271-273, 276-280). -/
inductive ChainErr
  | backendReadOnly
  | noWritableStore
  | couldntCreate
deriving DecidableEq, Repr

/-- The write-and-notify tail of `AccountManager.set_password`
(api.py:260-275): invoke the chosen store's `set_password` and either notify
`created`, raise the couldn't-create error (for `overwrite=False` on an
existing account), or notify `password_changed`.  The second component logs
the names of stores whose `set_password` was invoked. -/
def store_set_call (st : Store) (u p : String) (overwrite : Bool) :
    Except ChainErr Bool × List String :=
  let result := st.setResult u p overwrite
  if result then (Except.ok true, [st.name])
  else if ¬overwrite then (Except.error ChainErr.couldntCreate, [st.name])
  else (Except.ok false, [st.name])

/-- `AccountManager.set_password` (api.py:251-281).  Routing: the store that
owns the uid handles the write; lacking the capability raises; with no owner
the first supporting store is used; with no supporting store at all a fatal
configuration error is raised.  (The legacy `TypeError` signature fallback of
api.py:264-268 is dead for stores with the modern signature and is elided.) -/
def set_password (ic : Bool) (stores : List Store) (user password : String)
    (overwrite : Bool) : Except ChainErr Bool × List String :=
  match find_user_store ic stores (handle_username_casing ic user) with
  | some st =>
    if ¬st.hasSet then (Except.error ChainErr.backendReadOnly, [])
    else store_set_call st (handle_username_casing ic user) password overwrite
  | none =>
    match get_supporting_store (fun s => s.hasSet) stores with
    | some st => store_set_call st (handle_username_casing ic user) password overwrite
    | none => (Except.error ChainErr.noWritableStore, [])

theorem store_set_call_log (st : Store) (u p : String) (overwrite : Bool) :
    (store_set_call st u p overwrite).2 = [st.name] := by
  cases overwrite
  · cases hr : st.setResult u p false <;> simp [store_set_call, hr]
  · cases hr : st.setResult u p true <;> simp [store_set_call, hr]

theorem get_supporting_store_go_eq_find? (hasOp : Store → Bool) :
    ∀ (l : List Store) (st : Option Store),
      (let r := get_supporting_store_go hasOp l st false
       if r.2 then r.1 else none) = l.find? hasOp := by
  intro l
  induction l with
  | nil => intro st; simp [get_supporting_store_go]
  | cons s rest ih =>
    intro st
    by_cases hs : hasOp s
    · simp [get_supporting_store_go, hs, List.find?]
    · simp only [get_supporting_store_go, hs, Bool.false_eq_true, if_false,
        List.find?]
      exact ih (some s)

/-- `get_supporting_store` returns exactly the first store in order with the
capability. -/
theorem get_supporting_store_eq_find? (hasOp : Store → Bool)
    (stores : List Store) :
    get_supporting_store hasOp stores = stores.find? hasOp :=
  get_supporting_store_go_eq_find? hasOp stores none

/-- Claim C8: write routing and configuration errors for the chain's
`set_password`.  The write goes to the store owning the uid
(`find_user_store`, the first store enumerating it); an owning store without
the `set_password` capability raises the backend-read-only error with no
store written; with no owning store the write goes to the first store in
order supporting `set_password`; and with no supporting store at all the
fatal no-writable-store configuration error is raised, again with no store
written. -/
theorem C8_set_password_routing (ic : Bool) (stores : List Store)
    (user password : String) (overwrite : Bool) :
    (∀ st, find_user_store ic stores (handle_username_casing ic user) = some st →
      st.hasSet = false →
      set_password ic stores user password overwrite =
        (Except.error ChainErr.backendReadOnly, [])) ∧
    (∀ st, find_user_store ic stores (handle_username_casing ic user) = some st →
      st.hasSet = true →
      (set_password ic stores user password overwrite).2 = [st.name]) ∧
    (find_user_store ic stores (handle_username_casing ic user) = none →
      ∀ st, stores.find? (fun s => s.hasSet) = some st →
        (set_password ic stores user password overwrite).2 = [st.name] ∧
          st.hasSet = true) ∧
    (find_user_store ic stores (handle_username_casing ic user) = none →
      stores.find? (fun s => s.hasSet) = none →
      set_password ic stores user password overwrite =
        (Except.error ChainErr.noWritableStore, [])) := by
  refine ⟨?_, ?_, ?_, ?_⟩
  · intro st hf hset
    unfold set_password
    rw [hf]
    simp [hset]
  · intro st hf hset
    unfold set_password
    rw [hf]
    simp only [hset, not_true_eq_false, Bool.false_eq_true, if_false]
    exact store_set_call_log st (handle_username_casing ic user) password overwrite
  · intro hf st hsup
    unfold set_password
    rw [hf]
    rw [get_supporting_store_eq_find?, hsup]
    exact ⟨store_set_call_log st (handle_username_casing ic user) password
      overwrite, List.find?_some hsup⟩
  · intro hf hsup
    unfold set_password
    rw [hf]
    rw [get_supporting_store_eq_find?, hsup]

/-- A read-only store owning user alice (no `set_password` attribute). -/
def storeReadOnly : Store :=
  ⟨"ro", ["alice"], fun _ _ => none, false, false, fun _ _ _ => false⟩

/-- A writable store owning nobody. -/
def storeWritable : Store :=
  ⟨"rw", [], fun _ _ => none, true, false, fun _ _ _ => true⟩

/-- Witness for C8: with a read-only owning store the write fails read-only;
an unowned uid routes to the writable store; with only the read-only store
configured the fatal configuration error is raised. -/
theorem C8_set_password_routing_witness :
    set_password false [storeReadOnly, storeWritable] "alice" "pw" true =
      (Except.error ChainErr.backendReadOnly, []) ∧
    (set_password false [storeReadOnly, storeWritable] "bob" "pw" true).2 =
      ["rw"] ∧
    set_password false [storeReadOnly] "bob" "pw" true =
      (Except.error ChainErr.noWritableStore, []) := by
  refine ⟨?_, ?_, ?_⟩
  · exact (C8_set_password_routing false [storeReadOnly, storeWritable]
      "alice" "pw" true).1 storeReadOnly rfl rfl
  · exact ((C8_set_password_routing false [storeReadOnly, storeWritable]
      "bob" "pw" true).2.2.1 rfl storeWritable rfl).1
  · exact (C8_set_password_routing false [storeReadOnly]
      "bob" "pw" true).2.2.2 rfl rfl

end Api

namespace Htfile

/-- File contents and byte strings are modelled as lists of characters. -/
abbrev Str := List Char

/-- Python `file.readlines()` in binary/POSIX text mode: split after each
newline character, keeping the terminators; a final chunk without a newline
is kept as a last line. -/
def linesKeep : Str → List Str
  | [] => []
  | c :: cs =>
    if c = '\n' then [c] :: linesKeep cs
    else
      match linesKeep cs with
      | [] => [[c]]
      | l :: ls => (c :: l) :: ls

/-- The universal-newlines translation performed by Python's
`open(..., 'rU')`: each `\r\n` pair and each lone `\r` becomes `\n`. -/
def translateU : Str → Str
  | [] => []
  | '\r' :: '\n' :: rest => '\n' :: translateU rest
  | '\r' :: rest => '\n' :: translateU rest
  | c :: rest => c :: translateU rest

/-- Python `s.rstrip('\r\n')`: drop trailing CR and LF characters. -/
def rstripCRLF (s : Str) : Str :=
  (s.reverse.dropWhile (fun c => c == '\r' || c == '\n')).reverse

/-- Python `s.rstrip('\n')`: drop trailing LF characters. -/
def rstripLF (s : Str) : Str :=
  (s.reverse.dropWhile (fun c => c == '\n')).reverse

/-- The end-of-line style prediction of `_update_file` (htfile.py:108-117):
`eol` defaults to `\n`; only when the platform `os.linesep` is not `\n` and
agrees with the last line's ending is `\r` or `\r\n` chosen. -/
def detectEol (linesep : Str) (lines : List Str) : Str :=
  match lines.getLast? with
  | none => ['\n']
  | some last =>
    if ¬(linesep = ['\n']) then
      if List.isSuffixOf ['\r'] last ∧ linesep = ['\r'] then ['\r']
      else if List.isSuffixOf ['\r', '\n'] last ∧ linesep = ['\r', '\n'] then
        ['\r', '\n']
      else ['\n']
    else ['\n']

/-- Python truthiness of the `userline` argument (`None` and the empty string
are falsy). -/
def truthyStr : Option Str → Bool
  | none => false
  | some s => !s.isEmpty

/-- Accumulator of `_update_file`'s line loop: the `new_lines` list and the
`matched` flag. -/
structure UpdAcc where
  newLines : List Str
  matched : Bool
deriving DecidableEq, Repr

/-- One iteration of the `for line in lines` loop of `_update_file`
(htfile.py:119-134): a line starting with the prefix is (on first match)
replaced by the new userline (`overwrite`) or kept with its terminator
normalized (`not overwrite`), and otherwise dropped; a non-matching line is
preserved as-is when it already ends with the chosen eol (and is not a CRLF
line under a LF eol), else rewritten with the terminator normalized. -/
def updStep (pfx eol : Str) (userline : Option Str) (overwrite : Bool)
    (acc : UpdAcc) (line : Str) : UpdAcc :=
  if pfx.isPrefixOf line then
    { newLines :=
        if ¬acc.matched ∧ truthyStr userline then
          if overwrite then acc.newLines ++ [userline.getD [] ++ eol]
          else acc.newLines ++ [rstripCRLF line ++ eol]
        else acc.newLines,
      matched := true }
  else if List.isSuffixOf eol line ∧
      ¬(eol = ['\n'] ∧ List.isSuffixOf ['\r', '\n'] line) then
    { acc with newLines := acc.newLines ++ [line] }
  else
    { acc with newLines := acc.newLines ++ [rstripCRLF line ++ eol] }

/-- The line-processing core of `_update_file` (htfile.py:119-150): run the
loop over the existing lines and append the new userline at the end when no
line matched (htfile.py:147-150). -/
def update_lines (pfx eol : Str) (userline : Option Str) (overwrite : Bool)
    (lines : List Str) : List Str × Bool :=
  let acc := lines.foldl (updStep pfx eol userline overwrite) ⟨[], false⟩
  if ¬acc.matched ∧ truthyStr userline then
    (acc.newLines ++ [userline.getD [] ++ eol], acc.matched)
  else (acc.newLines, acc.matched)

/-- `AbstractPasswordFileStore._update_file` (htfile.py:75-170) on the raw
content of an existing readable file (an absent file behaves as empty
content, htfile.py:135-138).  Returns the list of lines written back and the
`matched` flag (the function's return value). -/
def update_file_run (linesep pfx : Str) (userline : Option Str)
    (overwrite : Bool) (content : Str) : List Str × Bool :=
  update_lines pfx (detectEol linesep (linesKeep content)) userline overwrite
    (linesKeep content)

/-- `_update_file` including the final single-pass `writelines`: the new file
content is the concatenation of the new lines. -/
def update_file (linesep pfx : Str) (userline : Option Str)
    (overwrite : Bool) (content : Str) : Str × Bool :=
  let r := update_file_run linesep pfx userline overwrite content
  (r.1.flatten, r.2)

/-- Observable state of the password file for `check_password`: missing
(`os.path.exists` is false), present but unreadable (`open`/read raises
`OSError`/`IOError`), or readable with raw content. -/
inductive FileState
  | absent
  | unreadable (content : Str)
  | readable (content : Str)

/-- The per-format parts of a concrete password file store: `prefix(user)`,
`_check_userline(user, password, suffix)` and `userline(user, password)`. -/
structure Backend where
  pfx : Str → Str
  checkUserline : Str → Str → Str → Bool
  mkUserline : Str → Str → Str

/-- The `for line in f` search of `check_password` (htfile.py:65-69): the
first line starting with the prefix decides. -/
def findUserLine (pfx : Str) : List Str → Option Str
  | [] => none
  | line :: rest =>
    if pfx.isPrefixOf line then some line else findUserLine pfx rest

/-- `AbstractPasswordFileStore.check_password` (htfile.py:55-73).  A missing
file returns `False` (htfile.py:56-60); an unreadable file returns `None`
(htfile.py:70-73); otherwise the file is read with universal newlines and the
first line starting with `prefix(user)` is checked, the suffix being the line
after the prefix with trailing newlines stripped; no such line gives `None`. -/
def check_password (b : Backend) (fs : FileState) (user password : Str) :
    Option Bool :=
  match fs with
  | FileState.absent => some false
  | FileState.unreadable _ => none
  | FileState.readable content =>
    match findUserLine (b.pfx user) (linesKeep (translateU content)) with
    | some line =>
      some (b.checkUserline user password
        (rstripLF (line.drop (b.pfx user).length)))
    | none => none

/-- `AbstractPasswordFileStore.set_password` (htfile.py:44-49):
`not _update_file(prefix(user), userline(user, password), overwrite)`;
returns the new file content and the created flag. -/
def set_password (linesep : Str) (b : Backend) (content : Str)
    (user password : Str) (overwrite : Bool) : Str × Bool :=
  let r := update_file linesep (b.pfx user) (some (b.mkUserline user password))
    overwrite content
  (r.1, !r.2)

/-- `AbstractPasswordFileStore.delete_user` (htfile.py:51-53):
`_update_file(prefix(user), None)`. -/
def delete_user (linesep : Str) (b : Backend) (content : Str) (user : Str) :
    Str × Bool :=
  update_file linesep (b.pfx user) none true content

/-- `HtPasswdStore.prefix` (htfile.py:200-201): `user + ':'`. -/
def htPfx (u : Str) : Str := u ++ [':']

/-- `HtPasswdStore` as a `Backend` (htfile.py:200-207), parametric in the
hash primitives: `mkhash` is `mkhtpasswd(password, hash_type)` and `hash` is
`htpasswd(password, salt-bearing-suffix)`. -/
def htBackend (mkhash : Str → Str) (hash : Str → Str → Str) : Backend :=
  ⟨htPfx, fun _ p suf => suf == hash p suf, fun u p => htPfx u ++ mkhash p⟩

/-- `HtPasswdStore._get_users` (htfile.py:209-214) composed with `get_users`
(htfile.py:36-42) for a readable file: each line read with universal
newlines yields `line.split(':', 1)[0]` when non-empty. -/
def ht_get_users (content : Str) : List Str :=
  (linesKeep (translateU content)).filterMap
    (fun line =>
      let u := line.takeWhile (fun c => !(c == ':'))
      if u.isEmpty then none else some u)

theorem findUserLine_some {pfx : Str} :
    ∀ {L : List Str} {line : Str}, findUserLine pfx L = some line →
      line ∈ L ∧ pfx.isPrefixOf line = true := by
  intro L
  induction L with
  | nil => intro line h; exact absurd h (by simp [findUserLine])
  | cons l rest ih =>
    intro line h
    by_cases hl : pfx.isPrefixOf l
    · simp only [findUserLine, hl, if_true, Option.some.injEq] at h
      subst h
      exact ⟨List.mem_cons_self l rest, hl⟩
    · simp only [findUserLine, hl, Bool.false_eq_true, if_false] at h
      obtain ⟨hmem, hp⟩ := ih h
      exact ⟨List.mem_cons_of_mem l hmem, hp⟩

/-- A trivial plain-text backend used for concrete evaluation: the stored
suffix is the password itself. -/
def plainBackend : Backend := htBackend (fun p => p) (fun p _ => p)

/-- Claim C4 (counterexample): for an absent password file the store's
`check_password` returns `False` (a definite Invalid, actively rejecting the
login), not `None` (Unknown) as the claim states. -/
theorem C4_counterexample :
    check_password plainBackend FileState.absent ['u'] ['p'] = some false ∧
      check_password plainBackend FileState.absent ['u'] ['p'] ≠ none := by
  refine ⟨rfl, ?_⟩
  intro h
  simp [check_password] at h

/-- Claim C4 (amended): the file store's `check_password` returns Invalid
(`False`) when the password file is absent; Unknown (`None`) when the file
exists but is unreadable, and also when no line with `prefix(uid)` exists in
a readable file; and on a readable file it returns Invalid only when a line
for the uid was found and the password comparison failed. -/
theorem C4_check_password_absence (b : Backend) (user password : Str) :
    check_password b FileState.absent user password = some false ∧
    (∀ c, check_password b (FileState.unreadable c) user password = none) ∧
    (∀ c, findUserLine (b.pfx user) (linesKeep (translateU c)) = none →
      check_password b (FileState.readable c) user password = none) ∧
    (∀ c, check_password b (FileState.readable c) user password = some false →
      ∃ line ∈ linesKeep (translateU c), (b.pfx user).isPrefixOf line = true ∧
        b.checkUserline user password
          (rstripLF (line.drop (b.pfx user).length)) = false) := by
  refine ⟨rfl, fun c => rfl, fun c hn => ?_, fun c hf => ?_⟩
  · simp [check_password, hn]
  · simp only [check_password] at hf
    cases hl : findUserLine (b.pfx user) (linesKeep (translateU c)) with
    | none => rw [hl] at hf; exact absurd hf (by simp)
    | some line =>
      rw [hl] at hf
      obtain ⟨hmem, hp⟩ := findUserLine_some hl
      refine ⟨line, hmem, hp, ?_⟩
      simpa using hf

/-- Witness for the amended C4 theorem at concrete inputs: an absent file
rejects, an unreadable file and a readable file without a matching line
give Unknown. -/
theorem C4_check_password_absence_witness :
    check_password plainBackend FileState.absent ['u'] ['p'] = some false ∧
    check_password plainBackend (FileState.unreadable ['x']) ['u'] ['p'] =
      none ∧
    check_password plainBackend
      (FileState.readable ['v', ':', 'q', '\n']) ['u'] ['p'] = none := by
  refine ⟨?_, ?_, ?_⟩
  · exact (C4_check_password_absence plainBackend ['u'] ['p']).1
  · exact (C4_check_password_absence plainBackend ['u'] ['p']).2.1 ['x']
  · exact (C4_check_password_absence plainBackend ['u'] ['p']).2.2.1
      ['v', ':', 'q', '\n'] rfl

/-- The rewriting `_update_file`'s loop applies to a non-matching line
(htfile.py:127-134): preserved verbatim when already terminated with the
chosen eol (and not a CRLF-terminated line under a LF eol), else rewritten
with its terminator normalized. -/
def normLine (eol : Str) (line : Str) : Str :=
  if List.isSuffixOf eol line ∧
      ¬(eol = ['\n'] ∧ List.isSuffixOf ['\r', '\n'] line) then line
  else rstripCRLF line ++ eol

theorem updStep_nomatch {pfx eol : Str} {userline : Option Str}
    {overwrite : Bool} {line : Str} (acc : UpdAcc)
    (h : pfx.isPrefixOf line = false) :
    updStep pfx eol userline overwrite acc line =
      ⟨acc.newLines ++ [normLine eol line], acc.matched⟩ := by
  unfold updStep normLine
  rw [h]
  simp only [Bool.false_eq_true, if_false]
  split
  · rfl
  · rfl

theorem updStep_matched_already {pfx eol : Str} {userline : Option Str}
    {overwrite : Bool} {line : Str} (acc : UpdAcc) (hm : acc.matched = true)
    (h : pfx.isPrefixOf line = true) :
    updStep pfx eol userline overwrite acc line = ⟨acc.newLines, true⟩ := by
  unfold updStep
  rw [h]
  simp [hm]

theorem updStep_match_first {pfx eol : Str} {userline : Option Str}
    {overwrite : Bool} {line : Str} (acc : UpdAcc) (hm : acc.matched = false)
    (h : pfx.isPrefixOf line = true) :
    updStep pfx eol userline overwrite acc line =
      ⟨acc.newLines ++
        (if truthyStr userline then
          (if overwrite then [userline.getD [] ++ eol]
           else [rstripCRLF line ++ eol])
         else []), true⟩ := by
  unfold updStep
  rw [h]
  simp only [hm, Bool.not_false, Bool.true_and, if_true]
  cases ht : truthyStr userline
  · simp
  · cases overwrite <;> simp

theorem foldl_updStep_matched (pfx eol : Str) (userline : Option Str)
    (overwrite : Bool) :
    ∀ (L : List Str) (acc : List Str),
      L.foldl (updStep pfx eol userline overwrite) ⟨acc, true⟩ =
        ⟨acc ++ L.filterMap (fun l =>
          if pfx.isPrefixOf l then none else some (normLine eol l)), true⟩ := by
  intro L
  induction L with
  | nil => intro acc; simp
  | cons x rest ih =>
    intro acc
    simp only [List.foldl_cons]
    by_cases hx : pfx <+: x
    · have hxb : pfx.isPrefixOf x = true := List.isPrefixOf_iff_prefix.mpr hx
      rw [updStep_matched_already ⟨acc, true⟩ rfl hxb, ih acc]
      simp [List.filterMap_cons, hx]
    · have hxb : pfx.isPrefixOf x = false := by
        rw [Bool.eq_false_iff]
        simpa [List.isPrefixOf_iff_prefix] using hx
      rw [updStep_nomatch ⟨acc, true⟩ hxb]
      simp only
      rw [ih (acc ++ [normLine eol x])]
      simp [List.filterMap_cons, hx]

theorem foldl_updStep_nomatch (pfx eol : Str) (userline : Option Str)
    (overwrite : Bool) :
    ∀ (L : List Str) (acc : List Str),
      (∀ l ∈ L, pfx.isPrefixOf l = false) →
      L.foldl (updStep pfx eol userline overwrite) ⟨acc, false⟩ =
        ⟨acc ++ L.map (normLine eol), false⟩ := by
  intro L
  induction L with
  | nil => intro acc _; simp
  | cons x rest ih =>
    intro acc h
    simp only [List.foldl_cons]
    rw [updStep_nomatch ⟨acc, false⟩ (h x (List.mem_cons_self x rest))]
    simp only
    rw [ih (acc ++ [normLine eol x])
      (fun l hl => h l (List.mem_cons_of_mem x hl))]
    simp

theorem update_lines_nomatch (pfx eol : Str) (userline : Option Str)
    (overwrite : Bool) (L : List Str)
    (h : ∀ l ∈ L, pfx.isPrefixOf l = false) :
    update_lines pfx eol userline overwrite L =
      (L.map (normLine eol) ++
        (if truthyStr userline then [userline.getD [] ++ eol] else []),
       false) := by
  unfold update_lines
  rw [foldl_updStep_nomatch pfx eol userline overwrite L [] h]
  cases ht : truthyStr userline <;> simp [ht]

theorem update_lines_split (pfx eol : Str) (userline : Option Str)
    (overwrite : Bool) (pre : List Str) (m : Str) (post : List Str)
    (hpre : ∀ l ∈ pre, pfx.isPrefixOf l = false)
    (hm : pfx.isPrefixOf m = true) :
    update_lines pfx eol userline overwrite (pre ++ m :: post) =
      (pre.map (normLine eol) ++
        (if truthyStr userline then
          (if overwrite then [userline.getD [] ++ eol]
           else [rstripCRLF m ++ eol])
         else []) ++
        post.filterMap (fun l =>
          if pfx.isPrefixOf l then none else some (normLine eol l)),
       true) := by
  unfold update_lines
  rw [List.foldl_append]
  rw [foldl_updStep_nomatch pfx eol userline overwrite pre [] hpre]
  simp only [List.foldl_cons]
  rw [updStep_match_first ⟨[] ++ pre.map (normLine eol), false⟩ rfl hm]
  simp only
  rw [foldl_updStep_matched pfx eol userline overwrite post]
  simp [List.append_assoc]

theorem normLine_suffix (eol line : Str) : eol <:+ normLine eol line := by
  unfold normLine
  split
  · rename_i hc
    exact List.isSuffixOf_iff_suffix.mp hc.1
  · exact List.suffix_append _ _

theorem updStep_suffix (pfx eol : Str) (userline : Option Str)
    (overwrite : Bool) (acc : UpdAcc) (line : Str)
    (hacc : ∀ l ∈ acc.newLines, eol <:+ l) :
    ∀ l ∈ (updStep pfx eol userline overwrite acc line).newLines, eol <:+ l := by
  intro l hl
  by_cases hp : pfx.isPrefixOf line
  · cases hm : acc.matched
    · rw [updStep_match_first acc hm hp] at hl
      simp only at hl
      rcases List.mem_append.mp hl with h | h
      · exact hacc l h
      · split at h
        · split at h
          · rw [List.mem_singleton] at h
            subst h
            exact List.suffix_append _ _
          · rw [List.mem_singleton] at h
            subst h
            exact List.suffix_append _ _
        · simp at h
    · rw [updStep_matched_already acc hm hp] at hl
      exact hacc l hl
  · have hpb : pfx.isPrefixOf line = false := by
      rw [Bool.eq_false_iff]
      exact hp
    rw [updStep_nomatch acc hpb] at hl
    simp only at hl
    rcases List.mem_append.mp hl with h | h
    · exact hacc l h
    · rw [List.mem_singleton] at h
      subst h
      exact normLine_suffix eol line

theorem foldl_updStep_suffix (pfx eol : Str) (userline : Option Str)
    (overwrite : Bool) :
    ∀ (L : List Str) (acc : UpdAcc), (∀ l ∈ acc.newLines, eol <:+ l) →
      ∀ l ∈ (L.foldl (updStep pfx eol userline overwrite) acc).newLines,
        eol <:+ l := by
  intro L
  induction L with
  | nil => intro acc hacc; simpa using hacc
  | cons x rest ih =>
    intro acc hacc
    simp only [List.foldl_cons]
    exact ih _ (updStep_suffix pfx eol userline overwrite acc x hacc)

theorem update_lines_suffix (pfx eol : Str) (userline : Option Str)
    (overwrite : Bool) (L : List Str) :
    ∀ l ∈ (update_lines pfx eol userline overwrite L).1, eol <:+ l := by
  intro l hl
  simp only [update_lines] at hl
  have hacc := foldl_updStep_suffix pfx eol userline overwrite L ⟨[], false⟩
    (by simp)
  split at hl
  · rcases List.mem_append.mp hl with h | h
    · exact hacc l h
    · rw [List.mem_singleton] at h
      subst h
      exact List.suffix_append _ _
  · exact hacc l hl

/-- Claim C7: uniform end-of-line invariant of the file rewrite primitive.
For every initial content and every operation (`set_password` passes a
userline, `delete_user` passes `None`), with `eol` the terminator detected by
`_update_file` from the last existing line (defaulting to `\n` when
undetermined, htfile.py:108-117): every line written back ends with that
single `eol`; each non-matching line is either preserved verbatim (when
already so terminated) or rewritten with only its terminator normalized;
and when no existing line matches the prefix, the lines written back are
exactly the normalized existing lines with the new record appended at the
end (matching lines are handled per htfile.py:120-126). -/
theorem C7_update_file_uniform_eol (linesep pfx : Str) (userline : Option Str)
    (overwrite : Bool) (content : Str) :
    (∀ l ∈ (update_file_run linesep pfx userline overwrite content).1,
        detectEol linesep (linesKeep content) <:+ l) ∧
    (∀ line, normLine (detectEol linesep (linesKeep content)) line = line ∨
        normLine (detectEol linesep (linesKeep content)) line =
          rstripCRLF line ++ detectEol linesep (linesKeep content)) ∧
    ((∀ l ∈ linesKeep content, pfx.isPrefixOf l = false) →
      update_file_run linesep pfx userline overwrite content =
        ((linesKeep content).map (normLine (detectEol linesep (linesKeep content))) ++
          (if truthyStr userline then
            [userline.getD [] ++ detectEol linesep (linesKeep content)]
           else []),
         false)) ∧
    (∀ pre m post, linesKeep content = pre ++ m :: post →
      (∀ l ∈ pre, pfx.isPrefixOf l = false) → pfx.isPrefixOf m = true →
      update_file_run linesep pfx userline overwrite content =
        (pre.map (normLine (detectEol linesep (linesKeep content))) ++
          (if truthyStr userline then
            (if overwrite then
              [userline.getD [] ++ detectEol linesep (linesKeep content)]
             else [rstripCRLF m ++ detectEol linesep (linesKeep content)])
           else []) ++
          post.filterMap (fun l =>
            if pfx.isPrefixOf l then none
            else some (normLine (detectEol linesep (linesKeep content)) l)),
         true)) := by
  refine ⟨?_, ?_, ?_, ?_⟩
  · intro l hl
    unfold update_file_run at hl
    exact update_lines_suffix pfx _ userline overwrite (linesKeep content) l hl
  · intro line
    unfold normLine
    split
    · exact Or.inl rfl
    · exact Or.inr rfl
  · intro h
    unfold update_file_run
    exact update_lines_nomatch pfx _ userline overwrite (linesKeep content) h
  · intro pre m post he hpre hm
    unfold update_file_run
    generalize detectEol linesep (linesKeep content) = E
    rw [he]
    exact update_lines_split pfx E userline overwrite pre m post hpre hm

/-- Witness for C7 at a concrete mixed-EOL file: rewriting the entry of user
b in `a:x\r\nb:y` (a CRLF line followed by an unterminated line) under a LF
platform produces uniformly LF-terminated lines with the non-matching line
normalized. -/
theorem C7_update_file_uniform_eol_witness :
    update_file_run ['\n'] ['b', ':'] (some ['b', ':', 'z']) true
        "a:x\r\nb:y".toList =
      (["a:x\n".toList, "b:z\n".toList], true) := by
  have h := (C7_update_file_uniform_eol ['\n'] ['b', ':']
    (some ['b', ':', 'z']) true "a:x\r\nb:y".toList).2.2.2
    ["a:x\r\n".toList] "b:y".toList [] (by decide) (by decide) (by decide)
  rw [h]
  decide

/-- A well-formed record line: a CR/LF-free body terminated by LF or CRLF. -/
def terminatedLine (l : Str) : Prop :=
  '\r' ∉ rstripCRLF l ∧ '\n' ∉ rstripCRLF l ∧
    (l = rstripCRLF l ++ ['\n'] ∨ l = rstripCRLF l ++ ['\r', '\n'])

theorem dropWhile_eq_self_of_none {p : Char → Bool} :
    ∀ {l : Str}, (∀ c ∈ l, p c = false) → l.dropWhile p = l := by
  intro l
  induction l with
  | nil => intro _; rfl
  | cons c t ih =>
    intro h
    rw [List.dropWhile_cons, h c (List.mem_cons_self c t)]
    simp

theorem rstripCRLF_of_clean {b : Str} (hr : '\r' ∉ b) (hn : '\n' ∉ b) :
    rstripCRLF b = b := by
  unfold rstripCRLF
  rw [dropWhile_eq_self_of_none, List.reverse_reverse]
  intro c hc
  rw [List.mem_reverse] at hc
  have hcr : ¬(c = '\r') := fun h => hr (h ▸ hc)
  have hcn : ¬(c = '\n') := fun h => hn (h ▸ hc)
  simp [hcr, hcn]

theorem rstripCRLF_append_lf (b : Str) :
    rstripCRLF (b ++ ['\n']) = rstripCRLF b := by
  unfold rstripCRLF
  rw [List.reverse_append]
  simp [List.dropWhile_cons]

theorem rstripCRLF_append_crlf (b : Str) :
    rstripCRLF (b ++ ['\r', '\n']) = rstripCRLF b := by
  unfold rstripCRLF
  rw [List.reverse_append]
  simp [List.dropWhile_cons]

theorem rstripLF_append_lf {b : Str} (hn : '\n' ∉ b) :
    rstripLF (b ++ ['\n']) = b := by
  unfold rstripLF
  rw [List.reverse_append]
  simp only [List.reverse_cons, List.reverse_nil, List.nil_append,
    List.singleton_append, List.dropWhile_cons]
  rw [if_pos (by simp)]
  rw [dropWhile_eq_self_of_none, List.reverse_reverse]
  intro c hc
  rw [List.mem_reverse] at hc
  have hcn : ¬(c = '\n') := fun h => hn (h ▸ hc)
  simp [hcn]

theorem terminatedLine_body_append {x eol : Str} (hr : '\r' ∉ x)
    (hn : '\n' ∉ x) (he : eol = ['\n'] ∨ eol = ['\r', '\n']) :
    terminatedLine (x ++ eol) ∧ rstripCRLF (x ++ eol) = x := by
  have hx : rstripCRLF (x ++ eol) = x := by
    rcases he with he | he <;> rw [he]
    · rw [rstripCRLF_append_lf, rstripCRLF_of_clean hr hn]
    · rw [rstripCRLF_append_crlf, rstripCRLF_of_clean hr hn]
  refine ⟨⟨?_, ?_, ?_⟩, hx⟩
  · rw [hx]; exact hr
  · rw [hx]; exact hn
  · rcases he with he | he
    · exact Or.inl (by rw [hx, he])
    · exact Or.inr (by rw [hx, he])

theorem linesKeep_append_line :
    ∀ (b r : Str), '\n' ∉ b →
      linesKeep (b ++ '\n' :: r) = (b ++ ['\n']) :: linesKeep r := by
  intro b
  induction b with
  | nil => intro r _; simp [linesKeep]
  | cons c b ih =>
    intro r h
    have hc : ¬(c = '\n') := fun hc => h (hc ▸ List.mem_cons_self c b)
    simp only [List.cons_append, linesKeep]
    rw [if_neg hc]
    rw [List.append_eq]
    rw [ih r (fun hx => h (List.mem_cons_of_mem c hx))]

theorem linesKeep_flatten :
    ∀ {L : List Str}, (∀ l ∈ L, terminatedLine l) → linesKeep L.flatten = L := by
  intro L
  induction L with
  | nil => intro _; simp [linesKeep]
  | cons l rest ih =>
    intro h
    obtain ⟨hr, hn, ht⟩ := h l (List.mem_cons_self l rest)
    have hrest := ih (fun x hx => h x (List.mem_cons_of_mem l hx))
    rw [List.flatten_cons]
    rcases ht with ht | ht
    · conv_lhs => rw [ht]
      rw [List.append_assoc, List.singleton_append,
        linesKeep_append_line _ _ hn, hrest, ← ht]
    · conv_lhs => rw [ht]
      have hn2 : '\n' ∉ rstripCRLF l ++ ['\r'] := by
        intro hmem
        rcases List.mem_append.mp hmem with hmem | hmem
        · exact hn hmem
        · simp at hmem
      have hsplit2 : (rstripCRLF l ++ ['\r', '\n']) ++ rest.flatten =
          (rstripCRLF l ++ ['\r']) ++ '\n' :: rest.flatten := by
        simp [List.append_assoc]
      rw [hsplit2, linesKeep_append_line _ _ hn2, hrest]
      congr 1
      rw [List.append_assoc]
      simpa using ht.symm

theorem translateU_crlf (s : Str) :
    translateU ('\r' :: '\n' :: s) = '\n' :: translateU s := rfl

theorem translateU_cons {c : Char} (hc : ¬(c = '\r')) (s : Str) :
    translateU (c :: s) = c :: translateU s := by
  cases s with
  | nil => simp [translateU, hc]
  | cons d t =>
    by_cases hd : d = '\n' <;> simp [translateU, hc, hd]

theorem translateU_append_clean :
    ∀ {b : Str}, '\r' ∉ b → ∀ (s : Str),
      translateU (b ++ s) = b ++ translateU s := by
  intro b
  induction b with
  | nil => intro _ s; rfl
  | cons c t ih =>
    intro h s
    have hc : ¬(c = '\r') := fun hc => h (hc ▸ List.mem_cons_self c t)
    rw [List.cons_append, translateU_cons hc,
      ih (fun hx => h (List.mem_cons_of_mem c hx)) s, List.cons_append]

theorem translateU_flatten :
    ∀ {L : List Str}, (∀ l ∈ L, terminatedLine l) →
      translateU L.flatten =
        (L.map (fun l => rstripCRLF l ++ ['\n'])).flatten := by
  intro L
  induction L with
  | nil => intro _; rfl
  | cons l rest ih =>
    intro h
    obtain ⟨hr, hn, ht⟩ := h l (List.mem_cons_self l rest)
    have hrest := ih (fun x hx => h x (List.mem_cons_of_mem l hx))
    rw [List.flatten_cons, List.map_cons, List.flatten_cons]
    rcases ht with ht | ht
    · conv_lhs => rw [ht]
      rw [List.append_assoc, List.singleton_append,
        translateU_append_clean hr, translateU_cons (by simp) _, hrest]
      simp [List.append_assoc]
    · conv_lhs => rw [ht]
      rw [List.append_assoc, translateU_append_clean hr]
      rw [show (['\r', '\n'] : Str) ++ rest.flatten =
        '\r' :: '\n' :: rest.flatten from rfl]
      rw [translateU_crlf, hrest]
      simp [List.append_assoc]

theorem prefix_append_term {pfx bdy t : Str} (hr : '\r' ∉ pfx)
    (hn : '\n' ∉ pfx) (ht : t = ['\n'] ∨ t = ['\r', '\n']) :
    pfx <+: bdy ++ t ↔ pfx <+: bdy := by
  constructor
  · intro h
    rcases ht with ht | ht <;> subst ht
    · rcases List.prefix_concat_iff.mp h with h | h
      · exact absurd (by rw [h]; exact List.mem_append_right bdy (by simp))
          hn
      · exact h
    · have h2 : pfx <+: (bdy ++ ['\r']) ++ ['\n'] := by
        simpa [List.append_assoc] using h
      rcases List.prefix_concat_iff.mp h2 with h2 | h2
      · exact absurd
          (by rw [h2]; exact List.mem_append_right _ (by simp)) hn
      · rcases List.prefix_concat_iff.mp h2 with h3 | h3
        · exact absurd (by rw [h3]; exact List.mem_append_right _ (by simp))
            hr
        · exact h3
  · intro h
    exact h.trans (List.prefix_append bdy t)

theorem prefix_terminated {pfx l : Str} (hr : '\r' ∉ pfx) (hn : '\n' ∉ pfx)
    (hl : terminatedLine l) : pfx <+: l ↔ pfx <+: rstripCRLF l := by
  obtain ⟨_, _, ht⟩ := hl
  rcases ht with ht | ht
  · conv_lhs => rw [ht]
    exact prefix_append_term hr hn (Or.inl rfl)
  · conv_lhs => rw [ht]
    exact prefix_append_term hr hn (Or.inr rfl)

theorem detectEol_terminated {linesep : Str} {L : List Str}
    (h : ∀ l ∈ L, terminatedLine l) :
    detectEol linesep L = ['\n'] ∨ detectEol linesep L = ['\r', '\n'] := by
  cases hl : L.getLast? with
  | none => simp [detectEol, hl]
  | some last =>
    simp only [detectEol, hl]
    have hmem : last ∈ L := by
      obtain ⟨hne, heq⟩ := List.mem_getLast?_eq_getLast (show last ∈ L.getLast? from hl)
      rw [heq]
      exact List.getLast_mem hne
    obtain ⟨hr, hn, ht⟩ := h last hmem
    have hnr : List.isSuffixOf ['\r'] last = false := by
      rw [Bool.eq_false_iff]
      intro hsuf
      obtain ⟨t, htt⟩ := List.isSuffixOf_iff_suffix.mp hsuf
      rcases ht with ht | ht
      · rw [ht] at htt
        obtain ⟨-, h2⟩ := List.append_inj' htt (by simp)
        simp at h2
      · rw [ht, show rstripCRLF last ++ ['\r', '\n'] =
          (rstripCRLF last ++ ['\r']) ++ ['\n'] by simp [List.append_assoc]]
          at htt
        obtain ⟨-, h2⟩ := List.append_inj' htt (by simp)
        simp at h2
    by_cases hsep : linesep = ['\n']
    · simp [hsep]
    · rw [if_pos hsep]
      rw [hnr]
      simp only [Bool.false_eq_true, false_and, if_false]
      split
      · exact Or.inr rfl
      · exact Or.inl rfl

theorem not_crlf_suffix {b : Str} (hr : '\r' ∉ b) :
    ¬(['\r', '\n'] <:+ b ++ ['\n']) := by
  intro hsuf
  obtain ⟨t, htt⟩ := hsuf
  rw [show t ++ ['\r', '\n'] = (t ++ ['\r']) ++ ['\n'] by
    simp [List.append_assoc]] at htt
  obtain ⟨h1, -⟩ := List.append_inj' htt (by simp)
  exact hr (h1 ▸ List.mem_append_right t (by simp))

theorem normLine_terminated {eol l : Str} (hl : terminatedLine l)
    (he : eol = ['\n'] ∨ eol = ['\r', '\n']) :
    normLine eol l = rstripCRLF l ++ eol := by
  obtain ⟨hr, hn, ht⟩ := hl
  unfold normLine
  rcases he with he | he <;> subst he <;> rcases ht with ht | ht
  · rw [if_pos]
    · exact ht
    refine ⟨List.isSuffixOf_iff_suffix.mpr
      (by rw [ht]; exact List.suffix_append _ _), ?_⟩
    intro hcon
    have hsuf := List.isSuffixOf_iff_suffix.mp hcon.2
    rw [ht] at hsuf
    exact not_crlf_suffix hr hsuf
  · rw [if_neg]
    intro hcon
    exact hcon.2 ⟨rfl, List.isSuffixOf_iff_suffix.mpr
      (by rw [ht]; exact List.suffix_append _ _)⟩
  · rw [if_neg]
    intro hcon
    have hsuf := List.isSuffixOf_iff_suffix.mp hcon.1
    rw [ht] at hsuf
    exact not_crlf_suffix hr hsuf
  · rw [if_pos]
    · exact ht
    refine ⟨List.isSuffixOf_iff_suffix.mpr
      (by rw [ht]; exact List.suffix_append _ _), ?_⟩
    intro hcon
    exact absurd hcon.1 (by simp)

instance terminatedLine_decidable : DecidablePred terminatedLine := by
  intro l
  unfold terminatedLine
  infer_instance

theorem findUserLine_append_nomatch {pfx : Str} :
    ∀ {M1 : List Str} (M2 : List Str),
      (∀ l ∈ M1, pfx.isPrefixOf l = false) →
      findUserLine pfx (M1 ++ M2) = findUserLine pfx M2 := by
  intro M1
  induction M1 with
  | nil => intro M2 _; rfl
  | cons x rest ih =>
    intro M2 h
    rw [List.cons_append]
    simp only [findUserLine, h x (List.mem_cons_self x rest)]
    simp only [Bool.false_eq_true, if_false]
    exact ih M2 (fun l hl => h l (List.mem_cons_of_mem x hl))

theorem check_password_readable_eval (b : Backend) (c : Str)
    (user pw : Str) {M1 M2 : List Str} {x : Str}
    (hsplit : linesKeep (translateU c) = M1 ++ x :: M2)
    (hM1 : ∀ l ∈ M1, (b.pfx user).isPrefixOf l = false)
    (hx : (b.pfx user).isPrefixOf x = true) :
    check_password b (FileState.readable c) user pw =
      some (b.checkUserline user pw
        (rstripLF (x.drop (b.pfx user).length))) := by
  simp only [check_password]
  rw [hsplit, findUserLine_append_nomatch _ hM1]
  simp [findUserLine, hx]

/-- `AccountManager.set_password` (api.py:251-281) for a chain configured
with exactly one file-backed store: `find_user_store` yields that store when
the uid is enumerated by it, and otherwise `get_supporting_store` selects
the same store (the file store has the `set_password` attribute), so the
write is routed to the file store either way; the result handling is
api.py:260-275 (raising the couldn't-create error when an existing account
is not overwritten). -/
def chain_set_password_ht (linesep : Str) (b : Backend) (content : Str)
    (user password : Str) (overwrite : Bool) :
    Str × Except Api.ChainErr Bool :=
  let r := set_password linesep b content user password overwrite
  if r.2 then (r.1, Except.ok true)
  else if ¬overwrite then (r.1, Except.error Api.ChainErr.couldntCreate)
  else (r.1, Except.ok false)

theorem htUserline_truthy (mkh : Str → Str) (hsh : Str → Str → Str)
    (user p : Str) :
    truthyStr (some ((htBackend mkh hsh).mkUserline user p)) = true := by
  simp [truthyStr, htBackend, htPfx, List.isEmpty_iff]

/-- The list of lines `_update_file` writes back in the existing-uid,
`overwrite=False` scenario: non-matching lines normalized, the first
matching line kept with its terminator normalized, later matching lines
dropped. -/
def keepLines (pfxU eol : Str) (pre post : List Str) (m : Str) : List Str :=
  pre.map (normLine eol) ++ [rstripCRLF m ++ eol] ++
    post.filterMap (fun l =>
      if pfxU.isPrefixOf l then none else some (normLine eol l))

/-- Claim C5: `overwrite=false` never mutates an existing credential.  For a
chain over a file store whose readable, well-formed password file contains a
credential line for the uid (`m`, the first line matching `prefix(uid)`),
calling the chain's `set_password` with a new password and
`overwrite=False` raises the couldn't-create error; the store reports
not-newly-created; the file is rewritten with the matched credential line
preserved up to terminator normalization; and a subsequent `check_password`
with the original password still returns Valid. -/
theorem C5_set_password_no_overwrite (linesep : Str)
    (mkh : Str → Str) (hsh : Str → Str → Str)
    (L pre post : List Str) (m user origpw newpw : Str)
    (hL : ∀ l ∈ L, terminatedLine l)
    (hsplit : L = pre ++ m :: post)
    (hpre : ∀ l ∈ pre, (htPfx user).isPrefixOf l = false)
    (hm : (htPfx user).isPrefixOf m = true)
    (hur : '\r' ∉ htPfx user) (hun : '\n' ∉ htPfx user)
    (_hex : user ∈ ht_get_users L.flatten)
    (hvalid : check_password (htBackend mkh hsh)
      (FileState.readable L.flatten) user origpw = some true) :
    (chain_set_password_ht linesep (htBackend mkh hsh) L.flatten user newpw
        false).2 = Except.error Api.ChainErr.couldntCreate ∧
    check_password (htBackend mkh hsh)
      (FileState.readable (chain_set_password_ht linesep (htBackend mkh hsh)
        L.flatten user newpw false).1) user origpw = some true ∧
    (set_password linesep (htBackend mkh hsh) L.flatten user newpw
        false).2 = false ∧
    update_file_run linesep (htPfx user)
        (some ((htBackend mkh hsh).mkUserline user newpw)) false L.flatten =
      (keepLines (htPfx user) (detectEol linesep L) pre post m, true) := by
  have hkeep : linesKeep L.flatten = L := linesKeep_flatten hL
  have heolOr : detectEol linesep L = ['\n'] ∨
      detectEol linesep L = ['\r', '\n'] := detectEol_terminated hL
  have hul : truthyStr (some (htPfx user ++ mkh newpw)) = true := by
    simp [truthyStr, htPfx, List.isEmpty_iff]
  have hmL : m ∈ L := by
    rw [hsplit]; exact List.mem_append_right pre (List.mem_cons_self m post)
  have hpreL : ∀ l ∈ pre, l ∈ L := by
    intro l hl; rw [hsplit]; exact List.mem_append_left _ hl
  have hpostL : ∀ l ∈ post, l ∈ L := by
    intro l hl
    rw [hsplit]
    exact List.mem_append_right _ (List.mem_cons_of_mem m hl)
  have hrun : update_file_run linesep (htPfx user)
      (some (htPfx user ++ mkh newpw)) false L.flatten =
      (keepLines (htPfx user) (detectEol linesep L) pre post m, true) := by
    unfold update_file_run keepLines
    rw [hkeep]
    generalize detectEol linesep L = E
    rw [hsplit]
    rw [update_lines_split (htPfx user) E _ false pre m post hpre hm]
    simp [hul]
  have hset : set_password linesep (htBackend mkh hsh) L.flatten user newpw
      false =
      ((keepLines (htPfx user) (detectEol linesep L) pre post m).flatten,
        false) := by
    simp only [set_password, update_file, htBackend]
    rw [hrun]
    rfl
  have hchain : chain_set_password_ht linesep (htBackend mkh hsh) L.flatten
      user newpw false =
      ((keepLines (htPfx user) (detectEol linesep L) pre post m).flatten,
        Except.error Api.ChainErr.couldntCreate) := by
    simp only [chain_set_password_ht]
    rw [hset]
    simp
  have hshape : ∀ y ∈ keepLines (htPfx user) (detectEol linesep L) pre post m,
      ∃ l ∈ L, y = rstripCRLF l ++ detectEol linesep L := by
    intro y hy
    unfold keepLines at hy
    rcases List.mem_append.mp hy with hy | hy
    · rcases List.mem_append.mp hy with hy | hy
      · obtain ⟨l, hl, rfl⟩ := List.mem_map.mp hy
        exact ⟨l, hpreL l hl,
          normLine_terminated (hL l (hpreL l hl)) heolOr⟩
      · rw [List.mem_singleton] at hy
        exact ⟨m, hmL, hy⟩
    · obtain ⟨l, hl, hfl⟩ := List.mem_filterMap.mp hy
      by_cases hp : (htPfx user).isPrefixOf l
      · rw [if_pos hp] at hfl
        cases hfl
      · rw [if_neg hp] at hfl
        refine ⟨l, hpostL l hl, ?_⟩
        rw [← Option.some.inj hfl]
        exact normLine_terminated (hL l (hpostL l hl)) heolOr
  have hNLterm : ∀ y ∈ keepLines (htPfx user) (detectEol linesep L) pre post m,
      terminatedLine y := by
    intro y hy
    obtain ⟨l, hl, rfl⟩ := hshape y hy
    obtain ⟨hr', hn', -⟩ := hL l hl
    exact (terminatedLine_body_append hr' hn' heolOr).1
  have hnewlines : linesKeep (translateU
      (keepLines (htPfx user) (detectEol linesep L) pre post m).flatten) =
      pre.map (fun l => rstripCRLF l ++ ['\n']) ++
        (rstripCRLF m ++ ['\n']) ::
        (post.filterMap (fun l =>
          if (htPfx user).isPrefixOf l then none
          else some (normLine (detectEol linesep L) l))).map
          (fun y => rstripCRLF y ++ ['\n']) := by
    have hmt : ∀ z ∈ (keepLines (htPfx user) (detectEol linesep L) pre post
        m).map (fun y => rstripCRLF y ++ ['\n']), terminatedLine z := by
      intro z hz
      obtain ⟨y, hy, rfl⟩ := List.mem_map.mp hz
      obtain ⟨l, hl, rfl⟩ := hshape y hy
      obtain ⟨hr', hn', -⟩ := hL l hl
      rw [(terminatedLine_body_append hr' hn' heolOr).2]
      exact (terminatedLine_body_append hr' hn' (Or.inl rfl)).1
    rw [translateU_flatten hNLterm, linesKeep_flatten hmt]
    unfold keepLines
    rw [List.map_append, List.map_append, List.map_map]
    have hA : pre.map ((fun y => rstripCRLF y ++ ['\n']) ∘
        normLine (detectEol linesep L)) =
        pre.map (fun l => rstripCRLF l ++ ['\n']) := by
      apply List.map_congr_left
      intro l hl
      obtain ⟨hr', hn', -⟩ := hL l (hpreL l hl)
      show rstripCRLF (normLine (detectEol linesep L) l) ++ ['\n'] =
        rstripCRLF l ++ ['\n']
      rw [normLine_terminated (hL l (hpreL l hl)) heolOr,
        (terminatedLine_body_append hr' hn' heolOr).2]
    obtain ⟨hrm, hnm, -⟩ := hL m hmL
    rw [hA, List.map_singleton,
      (terminatedLine_body_append hrm hnm heolOr).2]
    simp [List.append_assoc]
  have holdlines : linesKeep (translateU L.flatten) =
      pre.map (fun l => rstripCRLF l ++ ['\n']) ++
        (rstripCRLF m ++ ['\n']) ::
        post.map (fun l => rstripCRLF l ++ ['\n']) := by
    have hmt : ∀ z ∈ L.map (fun l => rstripCRLF l ++ ['\n']),
        terminatedLine z := by
      intro z hz
      obtain ⟨l, hl, rfl⟩ := List.mem_map.mp hz
      obtain ⟨hr', hn', -⟩ := hL l hl
      exact (terminatedLine_body_append hr' hn' (Or.inl rfl)).1
    rw [translateU_flatten hL, linesKeep_flatten hmt, hsplit,
      List.map_append, List.map_cons]
  have hM1 : ∀ z ∈ pre.map (fun l => rstripCRLF l ++ ['\n']),
      (htPfx user).isPrefixOf z = false := by
    intro z hz
    obtain ⟨l, hl, rfl⟩ := List.mem_map.mp hz
    rw [Bool.eq_false_iff]
    intro hcon
    have h1 : htPfx user <+: rstripCRLF l ++ ['\n'] :=
      List.isPrefixOf_iff_prefix.mp hcon
    have h2 : htPfx user <+: rstripCRLF l :=
      (prefix_append_term hur hun (Or.inl rfl)).mp h1
    have h3 : htPfx user <+: l :=
      (prefix_terminated hur hun (hL l (hpreL l hl))).mpr h2
    have hb := hpre l hl
    rw [Bool.eq_false_iff] at hb
    exact hb (List.isPrefixOf_iff_prefix.mpr h3)
  have hxm : (htPfx user).isPrefixOf (rstripCRLF m ++ ['\n']) = true := by
    have h1 : htPfx user <+: m := List.isPrefixOf_iff_prefix.mp hm
    have h2 : htPfx user <+: rstripCRLF m :=
      (prefix_terminated hur hun (hL m hmL)).mp h1
    exact List.isPrefixOf_iff_prefix.mpr
      ((prefix_append_term hur hun (Or.inl rfl)).mpr h2)
  have hold := check_password_readable_eval (htBackend mkh hsh) L.flatten
    user origpw holdlines hM1 hxm
  have hnew := check_password_readable_eval (htBackend mkh hsh)
    (keepLines (htPfx user) (detectEol linesep L) pre post m).flatten
    user origpw hnewlines hM1 hxm
  have hfst : (chain_set_password_ht linesep (htBackend mkh hsh) L.flatten
      user newpw false).1 =
      (keepLines (htPfx user) (detectEol linesep L) pre post m).flatten := by
    rw [hchain]
  refine ⟨?_, ?_, ?_, hrun⟩
  · rw [hchain]
  · rw [hfst, hnew, ← hold]
    exact hvalid
  · rw [hset]

/-- Witness for C5 at a concrete store: the file `alice:pw` (with the
identity hash) refuses `set_password alice qq overwrite=False` with the
couldn't-create error and still validates the original password
afterwards. -/
theorem C5_set_password_no_overwrite_witness :
    (chain_set_password_ht ['\n'] (htBackend (fun p => p) (fun p _ => p))
        (["alice:pw\n".toList] : List Str).flatten "alice".toList
        "qq".toList false).2 = Except.error Api.ChainErr.couldntCreate ∧
    check_password (htBackend (fun p => p) (fun p _ => p))
      (FileState.readable (chain_set_password_ht ['\n']
        (htBackend (fun p => p) (fun p _ => p))
        (["alice:pw\n".toList] : List Str).flatten "alice".toList
        "qq".toList false).1) "alice".toList "pw".toList = some true := by
  have h := C5_set_password_no_overwrite ['\n'] (fun p => p) (fun p _ => p)
    ["alice:pw\n".toList] [] [] "alice:pw\n".toList "alice".toList
    "pw".toList "qq".toList (by decide) rfl (by decide) (by decide)
    (by decide) (by decide) (by decide) (by decide)
  exact ⟨h.1, h.2.1⟩

end Htfile

namespace Model

/-- A row of the `session_attribute` table. -/
structure AttrRow where
  sid : String
  authenticated : Nat
  name : String
  value : String
deriving DecidableEq, Repr

/-- `get_user_attribute(env, user, 1, attribute, value)` with all four
constraints given (model.py:398-438): no selectable column remains, so the
query is `SELECT COUNT(*)` and the result is the one-element list holding
the number of matching rows (model.py:436-438). -/
def get_user_attribute_count (attrs : List AttrRow) (user name value : String) :
    List Nat :=
  [(attrs.filter (fun r =>
      r.sid == user && r.authenticated == 1 && r.name == name &&
        r.value == value)).length]

/-- `set_user_attribute` (model.py:504-523): UPDATE every matching row, then
INSERT the attribute when the subsequent SELECT finds none. -/
def set_user_attribute (attrs : List AttrRow) (user name value : String) :
    List AttrRow :=
  let updated := attrs.map (fun r =>
    if r.sid == user && r.authenticated == 1 && r.name == name then
      { r with value := value } else r)
  if (updated.filter (fun r =>
      r.sid == user && r.authenticated == 1 && r.name == name)).isEmpty then
    updated ++ [⟨user, 1, name, value⟩]
  else updated

/-- `AccountManager._maybe_update_hash` (api.py:409-421): when the account's
`password_refreshed` attribute does not hold 1, rewrite the credential into
the preferred writable store (dropping a stale entry from the owning store)
and set the flag; otherwise do nothing.  The store rewrite itself is
abstracted to the returned boolean, which records whether any store write
was performed. -/
def maybe_update_hash (attrs : List AttrRow) (user : String) :
    List AttrRow × Bool :=
  if get_user_attribute_count attrs user "password_refreshed" "1" = [0] then
    (set_user_attribute attrs user "password_refreshed" "1", true)
  else (attrs, false)

/-- The loop of `AccountManager.check_password` (api.py:286-293) with the
hash-refresh hook threaded: when a store's verdict is truthy and is `True`
and `refresh_passwd` is set and some store supports `set_password`,
`_maybe_update_hash` runs before the loop breaks. -/
def check_password_run_loop (refresh_passwd : Bool)
    (allStores : List Api.Store) (u p : String) :
    List Api.Store → Option Bool → List AttrRow →
      Option Bool × List AttrRow × Bool
  | [], valid, attrs => (valid, attrs, false)
  | s :: rest, _, attrs =>
    let valid := s.check u p
    if Api.truthy valid then
      if valid = some true ∧ refresh_passwd = true ∧
          (Api.get_supporting_store (fun t => t.hasSet) allStores).isSome then
        (valid, (maybe_update_hash attrs u).1, (maybe_update_hash attrs u).2)
      else (valid, attrs, false)
    else check_password_run_loop refresh_passwd allStores u p rest valid attrs

/-- `AccountManager.check_password` (api.py:283-294) returning the verdict,
the resulting attribute table and whether a credential rewrite happened. -/
def check_password_run (refresh_passwd ic : Bool) (stores : List Api.Store)
    (attrs : List AttrRow) (user password : String) :
    Option Bool × List AttrRow × Bool :=
  check_password_run_loop refresh_passwd stores
    (Api.handle_username_casing ic user) password stores (some false) attrs

theorem set_user_attribute_mem (attrs : List AttrRow) (u n v : String) :
    ∃ r ∈ set_user_attribute attrs u n v,
      (r.sid == u && r.authenticated == 1 && r.name == n &&
        r.value == v) = true := by
  unfold set_user_attribute
  by_cases hemp : ((attrs.map (fun r =>
      if r.sid == u && r.authenticated == 1 && r.name == n then
        { r with value := v } else r)).filter (fun r =>
      r.sid == u && r.authenticated == 1 && r.name == n)).isEmpty
  · rw [if_pos hemp]
    exact ⟨⟨u, 1, n, v⟩, List.mem_append_right _ (by simp), by simp⟩
  · rw [if_neg hemp]
    have hne : (attrs.map (fun r =>
        if r.sid == u && r.authenticated == 1 && r.name == n then
          { r with value := v } else r)).filter (fun r =>
        r.sid == u && r.authenticated == 1 && r.name == n) ≠ [] := by
      intro h0
      rw [h0] at hemp
      simp at hemp
    obtain ⟨r, hr⟩ := List.exists_mem_of_ne_nil _ hne
    obtain ⟨hrmem, hrP⟩ := List.mem_filter.mp hr
    obtain ⟨r0, hr0, hfr0⟩ := List.mem_map.mp hrmem
    by_cases h0 : (r0.sid == u && r0.authenticated == 1 && r0.name == n) = true
    · rw [if_pos h0] at hfr0
      refine ⟨r, hrmem, ?_⟩
      rw [← hfr0]
      simp only [Bool.and_eq_true] at h0 ⊢
      exact ⟨h0, by simp⟩
    · rw [if_neg h0] at hfr0
      rw [← hfr0] at hrP
      exact absurd hrP h0

theorem set_user_attribute_count_ne_zero (attrs : List AttrRow)
    (u n v : String) :
    get_user_attribute_count (set_user_attribute attrs u n v) u n v ≠ [0] := by
  obtain ⟨r, hrmem, hrP⟩ := set_user_attribute_mem attrs u n v
  unfold get_user_attribute_count
  intro hcon
  rw [List.cons.injEq] at hcon
  have hlen := hcon.1
  rw [List.length_eq_zero] at hlen
  have hmem : r ∈ (set_user_attribute attrs u n v).filter (fun r =>
      r.sid == u && r.authenticated == 1 && r.name == n && r.value == v) :=
    List.mem_filter.mpr ⟨hrmem, hrP⟩
  rw [hlen] at hmem
  exact absurd hmem (List.not_mem_nil r)

theorem check_password_run_loop_spec (refresh : Bool)
    (allStores : List Api.Store) (u p : String) :
    ∀ (l : List Api.Store) (v : Option Bool) (attrs : List AttrRow),
      Api.truthy v = false →
      check_password_run_loop refresh allStores u p l v attrs =
        (Api.checkLoop u p l v,
         if Api.checkLoop u p l v = some true ∧ refresh = true ∧
             (Api.get_supporting_store (fun t => t.hasSet) allStores).isSome
         then maybe_update_hash attrs u
         else (attrs, false)) := by
  intro l
  induction l with
  | nil =>
    intro v attrs hv
    have hne : ¬(v = some true) := by
      intro h
      rw [h] at hv
      simp [Api.truthy] at hv
    simp [check_password_run_loop, Api.checkLoop, hne]
  | cons s rest ih =>
    intro v attrs hv
    by_cases hs : Api.truthy (s.check u p) = true
    · have hst : s.check u p = some true := Api.truthy_eq_true_iff.mp hs
      simp only [check_password_run_loop, Api.checkLoop, hs, if_true]
      rw [hst]
      by_cases hc : refresh = true ∧
          (Api.get_supporting_store (fun t => t.hasSet) allStores).isSome
      · simp [hc]
      · simp only [true_and]
        rw [if_neg hc, if_neg hc]
    · have hsf : Api.truthy (s.check u p) = false := by
        rw [Bool.eq_false_iff]
        exact hs
      simp only [check_password_run_loop, Api.checkLoop, hsf,
        Bool.false_eq_true, if_false]
      exact ih (s.check u p) attrs hsf

/-- Claim C6: hash-refresh idempotence.  With the refresh-on-success policy
enabled and a writable store configured, for an account whose
`password_refreshed` flag is unset, two consecutive successful
`check_password` calls rewrite the credential on the first call only: the
first call performs the store write and sets the flag through
`_maybe_update_hash`, and the second call performs no store write and
leaves the attributes unchanged. -/
theorem C6_refresh_idempotent (ic : Bool) (stores : List Api.Store)
    (attrs : List AttrRow) (user password : String)
    (hsup : (Api.get_supporting_store (fun t => t.hasSet) stores).isSome)
    (hflag : get_user_attribute_count attrs
      (Api.handle_username_casing ic user) "password_refreshed" "1" = [0])
    (hvalid : Api.check_password ic stores user password = some true) :
    (check_password_run true ic stores attrs user password).1 = some true ∧
    (check_password_run true ic stores attrs user password).2.2 = true ∧
    (check_password_run true ic stores
      (check_password_run true ic stores attrs user password).2.1 user
      password).1 = some true ∧
    (check_password_run true ic stores
      (check_password_run true ic stores attrs user password).2.1 user
      password).2.1 =
      (check_password_run true ic stores attrs user password).2.1 ∧
    (check_password_run true ic stores
      (check_password_run true ic stores attrs user password).2.1 user
      password).2.2 = false := by
  have hcl : Api.checkLoop (Api.handle_username_casing ic user) password
      stores (some false) = some true := hvalid
  have hrun1 : check_password_run true ic stores attrs user password =
      (some true, set_user_attribute attrs
        (Api.handle_username_casing ic user) "password_refreshed" "1",
        true) := by
    unfold check_password_run
    rw [check_password_run_loop_spec true stores
      (Api.handle_username_casing ic user) password stores (some false)
      attrs rfl]
    rw [hcl, if_pos ⟨rfl, rfl, hsup⟩]
    simp [maybe_update_hash, hflag]
  have hflag2 : get_user_attribute_count (set_user_attribute attrs
      (Api.handle_username_casing ic user) "password_refreshed" "1")
      (Api.handle_username_casing ic user) "password_refreshed" "1" ≠ [0] :=
    set_user_attribute_count_ne_zero attrs _ _ _
  have hrun2 : check_password_run true ic stores
      (set_user_attribute attrs (Api.handle_username_casing ic user)
        "password_refreshed" "1") user password =
      (some true, set_user_attribute attrs
        (Api.handle_username_casing ic user) "password_refreshed" "1",
        false) := by
    unfold check_password_run
    rw [check_password_run_loop_spec true stores
      (Api.handle_username_casing ic user) password stores (some false)
      _ rfl]
    rw [hcl, if_pos ⟨rfl, rfl, hsup⟩]
    simp [maybe_update_hash, hflag2]
  rw [hrun1]
  rw [hrun2]
  exact ⟨rfl, rfl, rfl, rfl, rfl⟩

/-- A store that accepts every password and supports `set_password`. -/
def storeValidWritable : Api.Store :=
  ⟨"vw", [], fun _ _ => some true, true, true, fun _ _ _ => true⟩

/-- Witness for C6: on an empty attribute table (flag unset), the first
successful check writes and the second does not. -/
theorem C6_refresh_idempotent_witness :
    (check_password_run true false [storeValidWritable] [] "u" "p").2.2 =
      true ∧
    (check_password_run true false [storeValidWritable]
      (check_password_run true false [storeValidWritable] [] "u" "p").2.1
      "u" "p").2.2 = false := by
  have h := C6_refresh_idempotent false [storeValidWritable] [] "u" "p"
    rfl rfl rfl
  exact ⟨h.2.1, h.2.2.2.2⟩

/-- A row of one of the auxiliary per-user tables purged by
`model.delete_user`; `key` is the table's user column (`_USER_KEYS`:
`auth_cookie` is keyed by `name`, `permission` by `username`, the session
tables by `sid`), `payload` stands for the row's remaining columns. -/
structure KRow where
  key : String
  payload : Nat
deriving DecidableEq, Repr

/-- The four auxiliary tables touched by `model.delete_user`
(model.py:554-556). -/
structure AuxDB where
  auth_cookie : List KRow
  session_attribute : List KRow
  session : List KRow
  permission : List KRow
deriving DecidableEq, Repr

/-- `model.delete_user` (model.py:551-566): delete every row keyed by the
user from `auth_cookie`, `session_attribute`, `session` and `permission`. -/
def delete_user (db : AuxDB) (user : String) : AuxDB :=
  { auth_cookie := db.auth_cookie.filter (fun r => !(r.key == user)),
    session_attribute := db.session_attribute.filter (fun r => !(r.key == user)),
    session := db.session.filter (fun r => !(r.key == user)),
    permission := db.permission.filter (fun r => !(r.key == user)) }

/-- `AccountManager.delete_user` (api.py:296-307): locate the owning store;
`getattr(store, 'delete_user', None)` is called only when it is callable (a
missing attribute — or no owning store — is silently skipped); then
`model.delete_user` purges the auxiliary tables and the `deleted`
notification fires.  The middle component records the name of the store
whose `delete_user` was invoked (`none` when the credential deletion was
skipped), the last the notifications fired. -/
def api_delete_user (ic : Bool) (stores : List Api.Store) (db : AuxDB)
    (user : String) : AuxDB × Option String × List String :=
  let u := Api.handle_username_casing ic user
  let called := match Api.find_user_store ic stores u with
    | some st => if st.hasDelete then some st.name else none
    | none => none
  (delete_user db u, called, ["deleted"])

/-- Claim C10: for every uid whose owning store does not implement
`delete_user` (or which no store owns), `AccountManager.delete_user` still
purges every auxiliary row keyed by the uid (session, session_attribute,
auth_cookie and permission, other rows being retained) and fires the
`deleted` notification, while the credential deletion is silently skipped
— no store's `delete_user` is invoked and no error is raised (the
function is total). -/
theorem C10_delete_user_skip_credentials (ic : Bool)
    (stores : List Api.Store) (db : AuxDB) (user : String)
    (h : ∀ st, Api.find_user_store ic stores
      (Api.handle_username_casing ic user) = some st →
      st.hasDelete = false) :
    (api_delete_user ic stores db user).2.1 = none ∧
    (api_delete_user ic stores db user).2.2 = ["deleted"] ∧
    (api_delete_user ic stores db user).1 =
      delete_user db (Api.handle_username_casing ic user) ∧
    (∀ r, r ∈ (api_delete_user ic stores db user).1.session ↔
      r ∈ db.session ∧ r.key ≠ Api.handle_username_casing ic user) ∧
    (∀ r, r ∈ (api_delete_user ic stores db user).1.session_attribute ↔
      r ∈ db.session_attribute ∧
        r.key ≠ Api.handle_username_casing ic user) ∧
    (∀ r, r ∈ (api_delete_user ic stores db user).1.auth_cookie ↔
      r ∈ db.auth_cookie ∧ r.key ≠ Api.handle_username_casing ic user) ∧
    (∀ r, r ∈ (api_delete_user ic stores db user).1.permission ↔
      r ∈ db.permission ∧ r.key ≠ Api.handle_username_casing ic user) := by
  have hcalled : (api_delete_user ic stores db user).2.1 = none := by
    simp only [api_delete_user]
    cases hf : Api.find_user_store ic stores
        (Api.handle_username_casing ic user) with
    | none => rfl
    | some st => simp [h st hf]
  have hmem : ∀ (l : List KRow) (r : KRow),
      r ∈ l.filter (fun t =>
        !(t.key == Api.handle_username_casing ic user)) ↔
      r ∈ l ∧ r.key ≠ Api.handle_username_casing ic user := by
    intro l r
    rw [List.mem_filter]
    constructor
    · intro ⟨h1, h2⟩
      refine ⟨h1, ?_⟩
      intro he
      rw [he] at h2
      simp at h2
    · intro ⟨h1, h2⟩
      refine ⟨h1, ?_⟩
      simpa using h2
  exact ⟨hcalled, rfl, rfl, fun r => hmem db.session r,
    fun r => hmem db.session_attribute r, fun r => hmem db.auth_cookie r,
    fun r => hmem db.permission r⟩

/-- A store owning user carol whose `delete_user` attribute is absent. -/
def storeNoDelete : Api.Store :=
  ⟨"nodel", ["carol"], fun _ _ => some true, true, false, fun _ _ _ => true⟩

/-- Witness for C10: deleting carol with a store lacking `delete_user`
purges her session row, fires the notification and calls no store. -/
theorem C10_delete_user_skip_credentials_witness :
    (api_delete_user false [storeNoDelete]
      ⟨[], [], [⟨"carol", 0⟩, ⟨"dave", 1⟩], []⟩ "carol").2.1 = none ∧
    (api_delete_user false [storeNoDelete]
      ⟨[], [], [⟨"carol", 0⟩, ⟨"dave", 1⟩], []⟩ "carol").2.2 = ["deleted"] ∧
    ¬((⟨"carol", 0⟩ : KRow) ∈ (api_delete_user false [storeNoDelete]
      ⟨[], [], [⟨"carol", 0⟩, ⟨"dave", 1⟩], []⟩ "carol").1.session) := by
  have h := C10_delete_user_skip_credentials false [storeNoDelete]
    ⟨[], [], [⟨"carol", 0⟩, ⟨"dave", 1⟩], []⟩ "carol"
    (fun st hst => by
      rw [show Api.find_user_store false [storeNoDelete]
        (Api.handle_username_casing false "carol") = some storeNoDelete
        from rfl] at hst
      rw [← Option.some.inj hst]
      rfl)
  refine ⟨h.1, h.2.1, ?_⟩
  intro hcon
  have := (h.2.2.2.1 ⟨"carol", 0⟩).mp hcon
  exact this.2 rfl

/-- A row of the `session` table (`last_visit` is a nullable column). -/
structure SessionRow where
  sid : String
  authenticated : Nat
  last_visit : Option Nat
deriving DecidableEq, Repr

/-- A row of a table handled by a primitive or unique-key changer: `rid`
stands for the row's other columns (its identity), `val` is the tracked
column's value. -/
structure TRow where
  rid : Nat
  val : String
deriving DecidableEq, Repr

/-- The `(table, column, constraint-or-none)` key of a rename outcome
entry. -/
structure Key where
  table : String
  column : String
  constr : Option String
deriving DecidableEq, Repr

/-- The result dict of an `IUserIdChanger.replace`: the per-sub-step counts,
or — after a caught data-layer error — a dict holding only the single
`error` entry for the failing sub-step (model.py:70, 92, 178, 213, 246). -/
inductive RepResult
  | ok (entries : List (Key × Nat))
  | error (key : Key) (msg : String)
deriving DecidableEq, Repr

/-- Whether `'error' in result` (model.py:347). -/
def RepResult.hasError : RepResult → Bool
  | RepResult.ok _ => false
  | RepResult.error _ _ => true

/-- The database state the rename engine acts on. -/
structure RenDB where
  session : List SessionRow
  session_attribute : List AttrRow
  tables : List (String × List TRow)
deriving DecidableEq, Repr

def RenDB.getTable (db : RenDB) (table : String) : List TRow :=
  (db.tables.lookup table).getD []

def RenDB.setTable (db : RenDB) (table : String) (rows : List TRow) : RenDB :=
  { db with tables := db.tables.map (fun t =>
      if t.1 == table then (t.1, rows) else t) }

/-- `DELETE FROM session WHERE authenticated=1 AND sid=uid`
(model.py:328-331 and model.py:351-354). -/
def session_delete_auth (db : RenDB) (uid : String) : RenDB :=
  { db with session := db.session.filter (fun r =>
      !(r.authenticated == 1 && r.sid == uid)) }

/-- The pre-flight INSERT of `change_uid` (model.py:332-335): insert a new
authenticated session row whose `last_visit` is the scalar subquery over
the current session table (NULL when the old uid has no row). -/
def session_insert_carry (db : RenDB) (new_uid old_uid : String) : RenDB :=
  { db with session := db.session ++
      [⟨new_uid, 1, (db.session.find? (fun r => r.sid == old_uid)).bind
        SessionRow.last_visit⟩] }

/-- `copy_user_attributes` (model.py:360-395): duplicate the authenticated
attributes of `username` for `new_uid`, inserting those the target lacks
and updating existing ones only when `overwrite` is set; returns the number
of attributes changed.  The source iterates the user's attribute dict and
checks against the target's snapshot; the embedding processes the user's
rows in table order, assuming one row per attribute name (the invariant
`set_user_attribute` maintains). -/
def copy_user_attributes (attrs : List AttrRow) (username new_uid : String)
    (overwrite : Bool) : List AttrRow × Nat :=
  let mine := attrs.filter (fun r =>
    r.sid == username && r.authenticated == 1)
  let targetNames := (attrs.filter (fun r =>
    r.sid == new_uid && r.authenticated == 1)).map AttrRow.name
  mine.foldl (fun acc r =>
    if !(targetNames.contains r.name) then
      (acc.1 ++ [⟨new_uid, 1, r.name, r.value⟩], acc.2 + 1)
    else if overwrite then
      (acc.1.map (fun t =>
        if t.sid == new_uid && t.authenticated == 1 && t.name == r.name then
          { t with value := r.value } else t), acc.2 + 1)
    else acc) (attrs, 0)

/-- `del_user_attribute(env, old_uid)` (model.py:526-548) with the default
`authenticated=1` and no attribute constraint. -/
def del_user_attribute (attrs : List AttrRow) (username : String) :
    List AttrRow :=
  attrs.filter (fun r => !(r.sid == username && r.authenticated == 1))

/-- An `IUserIdChanger` as the engine invokes it:
`replace(old_uid, new_uid)` acting on the database. -/
abbrev Changer : Type := String → String → RenDB → RenDB × RepResult

/-- The steps of `change_uid` before the changer loop (model.py:326-344):
session pre-flight, attribute copy, optional attribute cleanup, and the
initial results dict with the `session_attribute` count. -/
def change_uid_init (db : RenDB) (old_uid new_uid : String)
    (attr_overwrite : Bool) : RenDB × List (Key × Nat) :=
  let db1 := session_delete_auth db new_uid
  let db2 := session_insert_carry db1 new_uid old_uid
  let ca := copy_user_attributes db2.session_attribute old_uid new_uid
    attr_overwrite
  let db3 := { db2 with session_attribute := ca.1 }
  let db4 := if attr_overwrite then
      { db3 with session_attribute :=
          del_user_attribute db3.session_attribute old_uid }
    else db3
  (db4, [(⟨"session_attribute", "sid", none⟩, ca.2)])

/-- The changer loop of `change_uid` (model.py:345-349): run each changer
in order, returning a failing changer's error dict immediately; a
successful changer's entries update the results dict. -/
def change_uid_loop (old_uid new_uid : String) :
    List Changer → RenDB → List (Key × Nat) → RenDB × RepResult
  | [], db, results => (db, RepResult.ok results)
  | c :: rest, db, results =>
    match c old_uid new_uid db with
    | (db', RepResult.error k msg) => (db', RepResult.error k msg)
    | (db', RepResult.ok entries) =>
      change_uid_loop old_uid new_uid rest db' (results ++ entries)

/-- `change_uid` (model.py:323-357): pre-flight and attribute migration,
the changer loop (aborting on the first error), then the deletion of the
old uid's session row and the final `(session, sid, none) → 1` entry. -/
def change_uid (db : RenDB) (old_uid new_uid : String)
    (changers : List Changer) (attr_overwrite : Bool) : RenDB × RepResult :=
  let ini := change_uid_init db old_uid new_uid attr_overwrite
  match change_uid_loop old_uid new_uid changers ini.1 ini.2 with
  | (db5, RepResult.error k msg) => (db5, RepResult.error k msg)
  | (db5, RepResult.ok res) =>
    (session_delete_auth db5 old_uid,
     RepResult.ok (res ++ [(⟨"session", "sid", none⟩, 1)]))

/-- `PrimitiveUserIdChanger.replace` (model.py:49-71) for a changer with the
given table and tracked column: count the rows holding `old_uid`, update
them when any exist and report the count; `fail` injects a data-layer error
raised by the statement, which is caught and turned into the single-entry
error dict (model.py:65-70) with the database unchanged. -/
def primitive_replace (table column : String) (fail : Option String) :
    Changer := fun old_uid new_uid db =>
  let rows := db.getTable table
  let count := (rows.filter (fun r => r.val == old_uid)).length
  match fail with
  | some msg => (db, RepResult.error ⟨table, column, none⟩ msg)
  | none =>
    (db.setTable table (if count ≠ 0 then
        rows.map (fun r =>
          if r.val == old_uid then { r with val := new_uid } else r)
      else rows),
     RepResult.ok [(⟨table, column, none⟩, count)])

/-- `UniqueUserIdChanger.replace` (model.py:82-93): first DELETE any row of
the target table already keyed by `new_uid`, then run the primitive
replacement; `failDel`/`failUpd` inject data-layer errors into the two
statements. -/
def unique_replace (table column : String) (failDel failUpd : Option String) :
    Changer := fun old_uid new_uid db =>
  match failDel with
  | some msg => (db, RepResult.error ⟨table, column, none⟩ msg)
  | none =>
    primitive_replace table column failUpd old_uid new_uid
      (db.setTable table ((db.getTable table).filter
        (fun r => !(r.val == new_uid))))

theorem change_uid_loop_append (old_uid new_uid : String) :
    ∀ (pre post : List Changer) (db : RenDB) (res : List (Key × Nat)),
      change_uid_loop old_uid new_uid (pre ++ post) db res =
        match change_uid_loop old_uid new_uid pre db res with
        | (db', RepResult.error k m) => (db', RepResult.error k m)
        | (db', RepResult.ok res') =>
            change_uid_loop old_uid new_uid post db' res' := by
  intro pre
  induction pre with
  | nil => intro post db res; rfl
  | cons c t ih =>
    intro post db res
    rw [List.cons_append]
    simp only [change_uid_loop]
    cases hc : c old_uid new_uid db with
    | mk db' r =>
      cases r with
      | error k m => rfl
      | ok entries => exact ih post db' (res ++ entries)

/-- Claim C2: rename abort-on-first-error.  For every rename run and every
changer list, when the changers before some failing one all succeed and
that changer's statement raises a recognized data-layer error (injected
into a primitive changer here), `change_uid` returns immediately: the
outcome is exactly the failing sub-step's single error entry keyed by its
`(table, column, none)` triple, the database is exactly the state the
failing changer left (so no later changer ran and `change_uid` did not
delete the old uid's session row), and no finalization
`(session, sid, none)` entry — indeed no count entry at all — is
present. -/
theorem C2_change_uid_abort (db : RenDB) (old_uid new_uid : String)
    (pre post : List Changer) (table column msg : String)
    (attr_overwrite : Bool) (dbM : RenDB) (resM : List (Key × Nat))
    (hpre : change_uid_loop old_uid new_uid pre
      (change_uid_init db old_uid new_uid attr_overwrite).1
      (change_uid_init db old_uid new_uid attr_overwrite).2 =
      (dbM, RepResult.ok resM)) :
    change_uid db old_uid new_uid
        (pre ++ primitive_replace table column (some msg) :: post)
        attr_overwrite =
      (dbM, RepResult.error ⟨table, column, none⟩ msg) ∧
    (change_uid db old_uid new_uid
        (pre ++ primitive_replace table column (some msg) :: post)
        attr_overwrite).1.session = dbM.session ∧
    (∀ res, (change_uid db old_uid new_uid
        (pre ++ primitive_replace table column (some msg) :: post)
        attr_overwrite).2 ≠ RepResult.ok res) := by
  have hloop : change_uid_loop old_uid new_uid
      (pre ++ primitive_replace table column (some msg) :: post)
      (change_uid_init db old_uid new_uid attr_overwrite).1
      (change_uid_init db old_uid new_uid attr_overwrite).2 =
      (dbM, RepResult.error ⟨table, column, none⟩ msg) := by
    rw [change_uid_loop_append old_uid new_uid pre _ _ _, hpre]
    rfl
  have hmain : change_uid db old_uid new_uid
      (pre ++ primitive_replace table column (some msg) :: post)
      attr_overwrite =
      (dbM, RepResult.error ⟨table, column, none⟩ msg) := by
    simp only [change_uid]
    rw [hloop]
  refine ⟨hmain, by rw [hmain], ?_⟩
  intro res hcon
  rw [hmain] at hcon
  exact RepResult.noConfusion hcon

/-- Witness for C2: with one clean changer before and one after, injecting
a failure on the ticket owner column aborts the run with that single error
entry and the already-touched state, the old session row surviving. -/
theorem C2_change_uid_abort_witness :
    change_uid ⟨[⟨"alice", 1, some 7⟩], [],
        [("ticket", [⟨1, "alice"⟩])]⟩ "alice" "bob"
      [primitive_replace "wiki" "author" none,
        primitive_replace "ticket" "owner" (some "boom"),
        primitive_replace "report" "author" none] true =
      (⟨[⟨"alice", 1, some 7⟩, ⟨"bob", 1, some 7⟩], [],
          [("ticket", [⟨1, "alice"⟩])]⟩,
        RepResult.error ⟨"ticket", "owner", none⟩ "boom") := by
  have h := C2_change_uid_abort ⟨[⟨"alice", 1, some 7⟩], [],
      [("ticket", [⟨1, "alice"⟩])]⟩ "alice" "bob"
    [primitive_replace "wiki" "author" none]
    [primitive_replace "report" "author" none] "ticket" "owner" "boom" true
    ⟨[⟨"alice", 1, some 7⟩, ⟨"bob", 1, some 7⟩], [],
      [("ticket", [⟨1, "alice"⟩])]⟩
    [(⟨"session_attribute", "sid", none⟩, 0),
      (⟨"wiki", "author", none⟩, 0)] (by decide)
  exact h.1

theorem find?_sid_filter (old_uid new_uid : String)
    (hne : old_uid ≠ new_uid) :
    ∀ l : List SessionRow,
      (l.filter (fun r =>
        !(r.authenticated == 1 && r.sid == new_uid))).find?
          (fun r => r.sid == old_uid) =
        l.find? (fun r => r.sid == old_uid) := by
  intro l
  induction l with
  | nil => rfl
  | cons r t ih =>
    rw [List.filter_cons]
    by_cases ho : (r.sid == old_uid) = true
    · have hnew : (r.sid == new_uid) = false := by
        rw [beq_eq_false_iff_ne]
        rw [beq_iff_eq] at ho
        rw [ho]
        exact hne
      have hcons : ∀ l, List.find? (fun s => s.sid == old_uid) (r :: l) =
          some r := by
        intro l
        simp only [List.find?]
        rw [ho]
      rw [if_pos (by simp [hnew])]
      rw [hcons, hcons]
    · have hof : (r.sid == old_uid) = false := by
        rw [Bool.eq_false_iff]
        exact ho
      have hcons : ∀ l, List.find? (fun s => s.sid == old_uid) (r :: l) =
          List.find? (fun s => s.sid == old_uid) l := by
        intro l
        simp only [List.find?]
        rw [hof]
      by_cases hk : (!(r.authenticated == 1 && r.sid == new_uid)) = true
      · rw [if_pos hk]
        rw [hcons, hcons]
        exact ih
      · rw [if_neg hk]
        rw [hcons]
        exact ih

/-- Claim C9: rename collision pre-deletion and session carry-over.  The
pre-flight of `change_uid` first deletes any authenticated session row for
`new_uid` and then inserts the new row carrying `old_uid`'s `last_visit`
(the deletion does not disturb the looked-up row since the uids differ);
and a unique-key changer deletes every row of its target table already
keyed by `new_uid` before running the primitive update.  Neither collision
resolution produces an error entry. -/
theorem C9_rename_collision (db : RenDB) (old_uid new_uid : String)
    (hne : old_uid ≠ new_uid) (table column : String) :
    (session_insert_carry (session_delete_auth db new_uid) new_uid
        old_uid).session =
      db.session.filter (fun r =>
        !(r.authenticated == 1 && r.sid == new_uid)) ++
        [⟨new_uid, 1, (db.session.find? (fun r =>
          r.sid == old_uid)).bind SessionRow.last_visit⟩] ∧
    (∀ r ∈ db.session.filter (fun r =>
        !(r.authenticated == 1 && r.sid == new_uid)),
      ¬(r.authenticated = 1 ∧ r.sid = new_uid)) ∧
    (∀ r0, db.session.find? (fun r => r.sid == old_uid) = some r0 →
      (session_insert_carry (session_delete_auth db new_uid) new_uid
        old_uid).session =
        db.session.filter (fun r =>
          !(r.authenticated == 1 && r.sid == new_uid)) ++
          [⟨new_uid, 1, r0.last_visit⟩]) ∧
    unique_replace table column none none old_uid new_uid db =
      primitive_replace table column none old_uid new_uid
        (db.setTable table ((db.getTable table).filter
          (fun r => !(r.val == new_uid)))) ∧
    (unique_replace table column none none old_uid new_uid db).2.hasError =
      false := by
  have hsession : (session_insert_carry (session_delete_auth db new_uid)
      new_uid old_uid).session =
      db.session.filter (fun r =>
        !(r.authenticated == 1 && r.sid == new_uid)) ++
        [⟨new_uid, 1, (db.session.find? (fun r =>
          r.sid == old_uid)).bind SessionRow.last_visit⟩] := by
    simp only [session_insert_carry, session_delete_auth]
    rw [find?_sid_filter old_uid new_uid hne db.session]
  refine ⟨hsession, ?_, ?_, rfl, ?_⟩
  · intro r hr ⟨ha, hs⟩
    obtain ⟨-, hp⟩ := List.mem_filter.mp hr
    rw [ha, hs] at hp
    simp at hp
  · intro r0 hr0
    rw [hsession, hr0]
    rfl
  · simp only [unique_replace, primitive_replace, RepResult.hasError]

/-- Witness for C9: a colliding authenticated session row for bob is
discarded, the inserted row carries alice's timestamp, and the unique-key
changer resolves the table collision without an error entry. -/
theorem C9_rename_collision_witness :
    (session_insert_carry (session_delete_auth
        ⟨[⟨"bob", 1, some 5⟩, ⟨"alice", 1, some 9⟩], [],
          [("auth_cookie", [⟨1, "bob"⟩, ⟨2, "alice"⟩])]⟩ "bob") "bob"
        "alice").session =
      [⟨"alice", 1, some 9⟩, ⟨"bob", 1, some 9⟩] ∧
    (unique_replace "auth_cookie" "name" none none "alice" "bob"
      ⟨[⟨"bob", 1, some 5⟩, ⟨"alice", 1, some 9⟩], [],
        [("auth_cookie", [⟨1, "bob"⟩, ⟨2, "alice"⟩])]⟩).2.hasError =
      false := by
  have h := C9_rename_collision
    ⟨[⟨"bob", 1, some 5⟩, ⟨"alice", 1, some 9⟩], [],
      [("auth_cookie", [⟨1, "bob"⟩, ⟨2, "alice"⟩])]⟩ "alice" "bob"
    (by decide) "auth_cookie" "name"
  exact ⟨h.1.trans (by decide), h.2.2.2.2⟩

/-- The separator class of `re.split(r'[;,\s]+', ...)` in `_get_cc_list`
(model.py:29): `;`, `,` and Python's `\s` whitespace. -/
def isCcSep (c : Char) : Bool :=
  c == ';' || c == ',' || c == ' ' || c == '\t' || c == '\n' || c == '\r' ||
    c == '\x0b' || c == '\x0c'

/-- Single-separator split of a character list.  `re.split` with the `+`
quantifier collapses separator runs; here a run yields interior empty
pieces, which the `if cc` filter of `_get_cc_list` removes exactly as it
removes the boundary empties of `re.split`. -/
def splitP (p : Char → Bool) : List Char → List (List Char)
  | [] => [[]]
  | c :: cs =>
    match splitP p cs with
    | [] => [[]]
    | t :: ts => if p c then [] :: t :: ts else (c :: t) :: ts

/-- `_get_cc_list` (model.py:23-32): split the Cc value on separators and
keep the first occurrence of each non-empty token. -/
def _get_cc_list (cc_value : Htfile.Str) : List Htfile.Str :=
  (splitP isCcSep cc_value).foldl
    (fun cclist cc =>
      if cc ≠ [] ∧ cc ∉ cclist then cclist ++ [cc] else cclist) []

/-- `[i for i, r in enumerate(cc) if r == old_uid]` (model.py:165, 230),
with `i` the index counted from `start`. -/
def matchIdxsFrom (old_uid : Htfile.Str) : Nat → List Htfile.Str → List Nat
  | _, [] => []
  | i, x :: xs =>
    if x == old_uid then i :: matchIdxsFrom old_uid (i + 1) xs
    else matchIdxsFrom old_uid (i + 1) xs

/-- The Cc rewrite of one row (model.py:164-170 and 229-237): every index
holding `old_uid` as an exact token is substituted (one UPDATE and one
count increment per index; the last UPDATE stores the fully substituted
list), and the stored value is the comma-space join (`', '.join`). -/
def ccRowUpdate (old_uid new_uid : Htfile.Str) (cc : Htfile.Str) :
    Htfile.Str × Nat :=
  let cclist := _get_cc_list cc
  let idxs := matchIdxsFrom old_uid 0 cclist
  (List.intercalate [',', ' ']
    (idxs.foldl (fun acc i => acc.set i new_uid) cclist), idxs.length)

/-- A row of the ticket table as the ticket changer sees it. -/
structure TicketRow where
  id : Nat
  owner : Htfile.Str
  reporter : Htfile.Str
  cc : Htfile.Str
deriving DecidableEq, Repr

/-- A row of the ticket_change table. -/
structure TCRow where
  ticket : Nat
  time : Nat
  author : Htfile.Str
  field : Htfile.Str
  oldvalue : Htfile.Str
  newvalue : Htfile.Str
deriving DecidableEq, Repr

/-- The two tables the ticket changer touches. -/
structure TicketDB where
  ticket : List TicketRow
  ticket_change : List TCRow
deriving DecidableEq, Repr

/-- A primitive column pass over the ticket table (`super().replace` with
`self.column` set, model.py:144-157 via model.py:49-71): count the rows
holding `old_uid` in the column and update them when any exist. -/
def colReplaceT (col : TicketRow → Htfile.Str)
    (setCol : TicketRow → Htfile.Str → TicketRow)
    (old_uid new_uid : Htfile.Str) (rows : List TicketRow) :
    List TicketRow × Nat :=
  let count := (rows.filter (fun r => col r == old_uid)).length
  (if count ≠ 0 then
    rows.map (fun r => if col r == old_uid then setCol r new_uid else r)
  else rows, count)

/-- A primitive-style pass over the ticket_change table (the author column,
model.py:183-190, and the constrained oldvalue/newvalue columns,
model.py:192-218): `matchRow` is the statement's WHERE clause. -/
def tcColReplace (matchRow : TCRow → Bool)
    (setCol : TCRow → Htfile.Str → TCRow) (new_uid : Htfile.Str)
    (rows : List TCRow) : List TCRow × Nat :=
  let count := (rows.filter matchRow).length
  (if count ≠ 0 then
    rows.map (fun r => if matchRow r then setCol r new_uid else r)
  else rows, count)

/-- The Cc pass over the ticket table (model.py:159-181): rows whose cc
value contains `old_uid` as a substring (the LIKE filter, every wildcard
escaped) are parsed and their exact token matches substituted; an UPDATE by
row id leaves row order unchanged, as the rebuild here does. -/
def ticketCcStep (old_uid new_uid : Htfile.Str) (rows : List TicketRow) :
    List TicketRow × Nat :=
  rows.foldl (fun acc row =>
    if old_uid <:+: row.cc then
      let r := ccRowUpdate old_uid new_uid row.cc
      if r.2 ≠ 0 then (acc.1 ++ [{ row with cc := r.1 }], acc.2 + r.2)
      else (acc.1 ++ [row], acc.2)
    else (acc.1 ++ [row], acc.2)) ([], 0)

/-- The Cc pass over one ticket_change value column (model.py:220-251):
rows with `field='cc'` whose value contains `old_uid` as a substring are
parsed and substituted; the UPDATE is keyed by (ticket, time), assumed
unique, so row order is unchanged. -/
def tcCcStep (col : TCRow → Htfile.Str)
    (setCol : TCRow → Htfile.Str → TCRow) (old_uid new_uid : Htfile.Str)
    (rows : List TCRow) : List TCRow × Nat :=
  rows.foldl (fun acc row =>
    if row.field = "cc".toList ∧ old_uid <:+: col row then
      let r := ccRowUpdate old_uid new_uid (col row)
      if r.2 ≠ 0 then (acc.1 ++ [setCol row r.1], acc.2 + r.2)
      else (acc.1 ++ [row], acc.2)
    else (acc.1 ++ [row], acc.2)) ([], 0)

/-- `TicketUserIdChanger.replace` (model.py:141-252) without injected
data-layer failures: the owner and reporter columns, the ticket Cc column,
the change-log author column, the oldvalue/newvalue columns restricted to
owner/reporter field changes, and the change-log Cc values, each sub-step
reporting its count under its distinguishing key (the Cc count is keyed
`(ticket, cc, none)`, model.py:181). -/
def ticket_replace (old_uid new_uid : Htfile.Str) (db : TicketDB) :
    TicketDB × List (Key × Nat) :=
  let r1 := colReplaceT (fun r => r.owner)
    (fun r v => { r with owner := v }) old_uid new_uid db.ticket
  let r2 := colReplaceT (fun r => r.reporter)
    (fun r v => { r with reporter := v }) old_uid new_uid r1.1
  let r3 := ticketCcStep old_uid new_uid r2.1
  let r4 := tcColReplace (fun r => r.author == old_uid)
    (fun r v => { r with author := v }) new_uid db.ticket_change
  let r5 := tcColReplace (fun r => r.oldvalue == old_uid &&
      (r.field == "owner".toList || r.field == "reporter".toList))
    (fun r v => { r with oldvalue := v }) new_uid r4.1
  let r6 := tcColReplace (fun r => r.newvalue == old_uid &&
      (r.field == "owner".toList || r.field == "reporter".toList))
    (fun r v => { r with newvalue := v }) new_uid r5.1
  let r7 := tcCcStep (fun r => r.oldvalue)
    (fun r v => { r with oldvalue := v }) old_uid new_uid r6.1
  let r8 := tcCcStep (fun r => r.newvalue)
    (fun r v => { r with newvalue := v }) old_uid new_uid r7.1
  (⟨r3.1, r8.1⟩,
   [(⟨"ticket", "owner", none⟩, r1.2),
    (⟨"ticket", "reporter", none⟩, r2.2),
    (⟨"ticket", "cc", none⟩, r3.2),
    (⟨"ticket_change", "author", none⟩, r4.2),
    (⟨"ticket_change", "oldvalue", some "field='owner'|'reporter'"⟩, r5.2),
    (⟨"ticket_change", "newvalue", some "field='owner'|'reporter'"⟩, r6.2),
    (⟨"ticket_change", "oldvalue", some "field='cc'"⟩, r7.2),
    (⟨"ticket_change", "newvalue", some "field='cc'"⟩, r8.2)])

theorem get_cc_fold_nodup :
    ∀ (pieces : List Htfile.Str) (acc : List Htfile.Str), acc.Nodup →
      (pieces.foldl (fun cclist cc =>
        if cc ≠ [] ∧ cc ∉ cclist then cclist ++ [cc] else cclist)
        acc).Nodup := by
  intro pieces
  induction pieces with
  | nil => intro acc h; exact h
  | cons p rest ih =>
    intro acc h
    simp only [List.foldl_cons]
    by_cases hc : p ≠ [] ∧ p ∉ acc
    · rw [if_pos hc]
      apply ih
      rw [List.nodup_append]
      refine ⟨h, List.nodup_singleton p, ?_⟩
      intro a ha hmem
      rw [List.mem_singleton] at hmem
      exact hc.2 (hmem ▸ ha)
    · rw [if_neg hc]
      exact ih acc h

theorem _get_cc_list_nodup (s : Htfile.Str) : (_get_cc_list s).Nodup :=
  get_cc_fold_nodup _ [] List.nodup_nil

theorem get_cc_fold_mem :
    ∀ (pieces : List Htfile.Str) (acc : List Htfile.Str) (x : Htfile.Str),
      x ∈ pieces.foldl (fun cclist cc =>
        if cc ≠ [] ∧ cc ∉ cclist then cclist ++ [cc] else cclist) acc →
      x ∈ acc ∨ x ∈ pieces := by
  intro pieces
  induction pieces with
  | nil => intro acc x h; exact Or.inl h
  | cons p rest ih =>
    intro acc x h
    simp only [List.foldl_cons] at h
    rcases ih _ x h with h0 | h0
    · by_cases hc : p ≠ [] ∧ p ∉ acc
      · rw [if_pos hc] at h0
        rcases List.mem_append.mp h0 with h1 | h1
        · exact Or.inl h1
        · rw [List.mem_singleton] at h1
          exact Or.inr (h1 ▸ List.mem_cons_self p rest)
      · rw [if_neg hc] at h0
        exact Or.inl h0
    · exact Or.inr (List.mem_cons_of_mem p h0)

theorem splitP_shape (p : Char → Bool) :
    ∀ cs : List Char, ∃ t ts, splitP p cs = t :: ts ∧ t <+: cs ∧
      ∀ x ∈ ts, x <:+: cs := by
  intro cs
  induction cs with
  | nil => exact ⟨[], [], rfl, List.nil_prefix, by simp⟩
  | cons c cs ih =>
    obtain ⟨t, ts, heq, hpre, hts⟩ := ih
    simp only [splitP, heq]
    by_cases hp : p c
    · rw [if_pos hp]
      refine ⟨[], t :: ts, rfl, List.nil_prefix, ?_⟩
      intro x hx
      rcases List.mem_cons.mp hx with hx | hx
      · exact List.infix_cons (hx ▸ hpre.isInfix)
      · exact List.infix_cons (hts x hx)
    · rw [if_neg hp]
      refine ⟨c :: t, ts, rfl, List.cons_prefix_cons.mpr ⟨rfl, hpre⟩, ?_⟩
      intro x hx
      exact List.infix_cons (hts x hx)

theorem mem_splitP_infix {p : Char → Bool} {cs x : List Char}
    (h : x ∈ splitP p cs) : x <:+: cs := by
  obtain ⟨t, ts, heq, hpre, hts⟩ := splitP_shape p cs
  rw [heq] at h
  rcases List.mem_cons.mp h with h | h
  · exact h ▸ hpre.isInfix
  · exact hts x h

theorem mem_get_cc_list_infix {s x : Htfile.Str} (h : x ∈ _get_cc_list s) :
    x <:+: s := by
  rcases get_cc_fold_mem _ [] x h with h0 | h0
  · exact absurd h0 (List.not_mem_nil x)
  · exact mem_splitP_infix h0

theorem matchIdxsFrom_eq_nil {old_uid : Htfile.Str} :
    ∀ {xs : List Htfile.Str} (i : Nat), old_uid ∉ xs →
      matchIdxsFrom old_uid i xs = [] := by
  intro xs
  induction xs with
  | nil => intro i _; rfl
  | cons x t ih =>
    intro i h
    have hx : (x == old_uid) = false := by
      rw [beq_eq_false_iff_ne]
      intro he
      exact h (he ▸ List.mem_cons_self x t)
    simp only [matchIdxsFrom, hx, Bool.false_eq_true, if_false]
    exact ih (i + 1) (fun hm => h (List.mem_cons_of_mem x hm))

theorem matchIdxsFrom_single {old_uid : Htfile.Str} :
    ∀ {xs : List Htfile.Str}, xs.Nodup → old_uid ∈ xs → ∀ i : Nat,
      ∃ j, matchIdxsFrom old_uid i xs = [i + j] ∧
        xs[j]? = some old_uid := by
  intro xs
  induction xs with
  | nil => intro _ h; exact absurd h (List.not_mem_nil _)
  | cons x t ih =>
    intro hnd hmem i
    by_cases hx : x = old_uid
    · subst hx
      have hnot : x ∉ t := (List.nodup_cons.mp hnd).1
      refine ⟨0, ?_, by simp⟩
      simp only [matchIdxsFrom]
      rw [if_pos (by simp)]
      rw [matchIdxsFrom_eq_nil (i + 1) hnot]
      simp
    · have hxf : (x == old_uid) = false := by
        rw [beq_eq_false_iff_ne]
        exact hx
      have hmem2 : old_uid ∈ t := by
        rcases List.mem_cons.mp hmem with h | h
        · exact absurd h.symm hx
        · exact h
      obtain ⟨j, hj, hget⟩ := ih (List.nodup_cons.mp hnd).2 hmem2 (i + 1)
      refine ⟨j + 1, ?_, ?_⟩
      · simp only [matchIdxsFrom, hxf, Bool.false_eq_true, if_false]
        rw [hj]
        congr 1
        omega
      · simpa using hget

theorem map_subst_id {old_uid new_uid : Htfile.Str} :
    ∀ {t : List Htfile.Str}, old_uid ∉ t →
      t.map (fun s => if s == old_uid then new_uid else s) = t := by
  intro t
  induction t with
  | nil => intro _; rfl
  | cons x xs ih =>
    intro h
    have hx : (x == old_uid) = false := by
      rw [beq_eq_false_iff_ne]
      intro he
      exact h (he ▸ List.mem_cons_self x xs)
    rw [List.map_cons, ih (fun hm => h (List.mem_cons_of_mem x hm))]
    rw [if_neg (by simp [hx])]

theorem set_eq_map_subst {old_uid new_uid : Htfile.Str} :
    ∀ {l : List Htfile.Str} {j : Nat}, l.Nodup → l[j]? = some old_uid →
      l.set j new_uid =
        l.map (fun s => if s == old_uid then new_uid else s) := by
  intro l
  induction l with
  | nil => intro j _ h; simp at h
  | cons x t ih =>
    intro j hnd hget
    cases j with
    | zero =>
      rw [List.getElem?_cons_zero] at hget
      have hx : x = old_uid := Option.some.inj hget
      subst hx
      rw [List.set_cons_zero, List.map_cons]
      rw [if_pos (by simp)]
      have hnot : x ∉ t := (List.nodup_cons.mp hnd).1
      rw [map_subst_id hnot]
    | succ j =>
      rw [List.getElem?_cons_succ] at hget
      have hmem : old_uid ∈ t := by
        have := List.getElem?_eq_some_iff.mp hget
        obtain ⟨hj, hv⟩ := this
        exact hv ▸ List.getElem_mem hj
      have hx : (x == old_uid) = false := by
        rw [beq_eq_false_iff_ne]
        intro he
        exact (List.nodup_cons.mp hnd).1 (he ▸ hmem)
      rw [List.set_cons_succ, List.map_cons]
      rw [if_neg (by simp [hx])]
      rw [ih (List.nodup_cons.mp hnd).2 hget]

theorem ccRowUpdate_mem {old_uid new_uid cc : Htfile.Str}
    (h : old_uid ∈ _get_cc_list cc) :
    ccRowUpdate old_uid new_uid cc =
      (List.intercalate [',', ' '] ((_get_cc_list cc).map
        (fun t => if t == old_uid then new_uid else t)), 1) := by
  obtain ⟨j, hj, hget⟩ := matchIdxsFrom_single (_get_cc_list_nodup cc) h 0
  rw [Nat.zero_add] at hj
  simp only [ccRowUpdate, hj]
  rw [List.foldl_cons, List.foldl_nil]
  rw [set_eq_map_subst (_get_cc_list_nodup cc) hget]
  rfl

theorem ccRowUpdate_not_mem {old_uid new_uid cc : Htfile.Str}
    (h : old_uid ∉ _get_cc_list cc) :
    ccRowUpdate old_uid new_uid cc = (List.intercalate [',', ' ']
      (_get_cc_list cc), 0) := by
  simp only [ccRowUpdate]
  rw [matchIdxsFrom_eq_nil 0 h]
  rfl

/-- The Cc value a ticket row holds after the Cc pass. -/
def ccSubst (old_uid new_uid cc : Htfile.Str) : Htfile.Str :=
  if old_uid ∈ _get_cc_list cc then
    List.intercalate [',', ' '] ((_get_cc_list cc).map
      (fun t => if t == old_uid then new_uid else t))
  else cc

theorem ticketCcStep_fold (old_uid new_uid : Htfile.Str) :
    ∀ (rows : List TicketRow) (acc : List TicketRow × Nat),
      rows.foldl (fun acc row =>
        if old_uid <:+: row.cc then
          let r := ccRowUpdate old_uid new_uid row.cc
          if r.2 ≠ 0 then (acc.1 ++ [{ row with cc := r.1 }], acc.2 + r.2)
          else (acc.1 ++ [row], acc.2)
        else (acc.1 ++ [row], acc.2)) acc =
      (acc.1 ++ rows.map (fun row =>
        { row with cc := ccSubst old_uid new_uid row.cc }),
       acc.2 + (rows.filter (fun row =>
        decide (old_uid ∈ _get_cc_list row.cc))).length) := by
  intro rows
  induction rows with
  | nil => intro acc; simp
  | cons row rest ih =>
    intro acc
    rw [List.foldl_cons]
    by_cases hm : old_uid ∈ _get_cc_list row.cc
    · have hinf : old_uid <:+: row.cc := mem_get_cc_list_infix hm
      have hstep : (if old_uid <:+: row.cc then
          let r := ccRowUpdate old_uid new_uid row.cc
          if r.2 ≠ 0 then (acc.1 ++ [{ row with cc := r.1 }], acc.2 + r.2)
          else (acc.1 ++ [row], acc.2)
        else (acc.1 ++ [row], acc.2)) =
          (acc.1 ++ [{ row with cc := ccSubst old_uid new_uid row.cc }],
           acc.2 + 1) := by
        rw [if_pos hinf, ccRowUpdate_mem hm]
        unfold ccSubst
        rw [if_pos hm]
        simp
      rw [hstep, ih]
      rw [List.map_cons, List.filter_cons]
      rw [if_pos (by simp [hm])]
      rw [Prod.mk.injEq]
      constructor
      · simp [List.append_assoc]
      · rw [List.length_cons]
        omega
    · have hstep : (if old_uid <:+: row.cc then
          let r := ccRowUpdate old_uid new_uid row.cc
          if r.2 ≠ 0 then (acc.1 ++ [{ row with cc := r.1 }], acc.2 + r.2)
          else (acc.1 ++ [row], acc.2)
        else (acc.1 ++ [row], acc.2)) = (acc.1 ++ [row], acc.2) := by
        by_cases hinf : old_uid <:+: row.cc
        · rw [if_pos hinf, ccRowUpdate_not_mem hm]
          simp
        · rw [if_neg hinf]
      rw [hstep, ih]
      rw [List.map_cons, List.filter_cons]
      rw [if_neg (by simp [hm])]
      unfold ccSubst
      rw [if_neg hm]
      simp [List.append_assoc]

theorem ticketCcStep_spec (old_uid new_uid : Htfile.Str)
    (rows : List TicketRow) :
    ticketCcStep old_uid new_uid rows =
      (rows.map (fun row =>
        { row with cc := ccSubst old_uid new_uid row.cc }),
       (rows.filter (fun row =>
        decide (old_uid ∈ _get_cc_list row.cc))).length) := by
  unfold ticketCcStep
  rw [ticketCcStep_fold]
  simp

theorem colReplaceT_cc_preserved (col : TicketRow → Htfile.Str)
    (setCol : TicketRow → Htfile.Str → TicketRow)
    (old_uid new_uid : Htfile.Str) (rows : List TicketRow)
    (h : ∀ r v, (setCol r v).cc = r.cc) :
    ((colReplaceT col setCol old_uid new_uid rows).1).map (fun r => r.cc) =
      rows.map (fun r => r.cc) := by
  simp only [colReplaceT]
  split
  · rw [List.map_map]
    apply List.map_congr_left
    intro r _
    show (if col r == old_uid then setCol r new_uid else r).cc = r.cc
    by_cases hc : (col r == old_uid) = true
    · rw [if_pos hc]
      exact h r new_uid
    · rw [if_neg hc]
  · rfl

/-- Claim C3: free-text CC token replacement.  After the ticket changer
runs, each ticket row's cc value is: when `old_uid` occurs as an exact
token of the parsed list (split on `;`, `,` or whitespace runs, duplicates
collapsed, order preserved), the comma-joined token list with `new_uid`
substituted at the position `old_uid` occupied and every other token
unchanged; otherwise — in particular when `old_uid` occurs only as a
substring of a longer token — the cc value is unchanged.  The count of
rows with an exact token match is reported under the key
`(ticket, cc, none)`. -/
theorem C3_ticket_cc_replacement (old_uid new_uid : Htfile.Str)
    (db : TicketDB) :
    ((ticket_replace old_uid new_uid db).1.ticket).map (fun r => r.cc) =
      db.ticket.map (fun row =>
        if old_uid ∈ _get_cc_list row.cc then
          List.intercalate [',', ' '] ((_get_cc_list row.cc).map
            (fun t => if t == old_uid then new_uid else t))
        else row.cc) ∧
    (⟨"ticket", "cc", none⟩,
      (db.ticket.filter (fun row =>
        decide (old_uid ∈ _get_cc_list row.cc))).length) ∈
      (ticket_replace old_uid new_uid db).2 := by
  have hcc2 : ((colReplaceT (fun r => r.reporter)
      (fun r v => { r with reporter := v }) old_uid new_uid
      ((colReplaceT (fun r => r.owner) (fun r v => { r with owner := v })
        old_uid new_uid db.ticket).1)).1).map (fun r => r.cc) =
      db.ticket.map (fun r => r.cc) := by
    rw [colReplaceT_cc_preserved (fun r => r.reporter)
      (fun r v => { r with reporter := v }) old_uid new_uid _
      (fun r v => rfl)]
    rw [colReplaceT_cc_preserved (fun r => r.owner)
      (fun r v => { r with owner := v }) old_uid new_uid _
      (fun r v => rfl)]
  have hcount : ∀ (l1 l2 : List TicketRow),
      l1.map (fun r => r.cc) = l2.map (fun r => r.cc) →
      (l1.filter (fun row =>
        decide (old_uid ∈ _get_cc_list row.cc))).length =
      (l2.filter (fun row =>
        decide (old_uid ∈ _get_cc_list row.cc))).length := by
    intro l1 l2 hmap
    have h1 := congrArg (fun l => (l.filter (fun cc =>
      decide (old_uid ∈ _get_cc_list cc))).length) hmap
    simpa [List.filter_map, List.length_map, Function.comp] using h1
  have hccmap : ∀ l : List TicketRow,
      (l.map (fun row =>
        { row with cc := ccSubst old_uid new_uid row.cc })).map
        (fun r => r.cc) =
      (l.map (fun r => r.cc)).map (ccSubst old_uid new_uid) := by
    intro l
    rw [List.map_map, List.map_map]
    rfl
  constructor
  · show ((ticketCcStep old_uid new_uid _).1).map (fun r => r.cc) = _
    rw [ticketCcStep_spec]
    rw [hccmap]
    rw [hcc2]
    rw [List.map_map]
    apply List.map_congr_left
    intro r _
    rfl
  · show (⟨"ticket", "cc", none⟩,
      (db.ticket.filter (fun row =>
        decide (old_uid ∈ _get_cc_list row.cc))).length) ∈ _
    simp only [ticket_replace, List.mem_cons]
    refine Or.inr (Or.inr (Or.inl ?_))
    rw [ticketCcStep_spec]
    rw [Prod.mk.injEq]
    exact ⟨rfl, hcount db.ticket _ hcc2.symm⟩

/-- Witness for C3: in `alice, bob` the token alice is replaced in place;
`malice` (a superstring token) and `bob;carol` are untouched; one row is
counted under `(ticket, cc, none)`. -/
theorem C3_ticket_cc_replacement_witness :
    ((ticket_replace "alice".toList "al2".toList
      ⟨[⟨1, [], [], "alice, bob".toList⟩, ⟨2, [], [], "malice".toList⟩,
        ⟨3, [], [], "bob;carol".toList⟩], []⟩).1.ticket).map
        (fun r => r.cc) =
      ["al2, bob".toList, "malice".toList, "bob;carol".toList] ∧
    ((⟨"ticket", "cc", none⟩ : Key), 1) ∈
      (ticket_replace "alice".toList "al2".toList
        ⟨[⟨1, [], [], "alice, bob".toList⟩, ⟨2, [], [], "malice".toList⟩,
          ⟨3, [], [], "bob;carol".toList⟩], []⟩).2 := by
  have h := C3_ticket_cc_replacement "alice".toList "al2".toList
    ⟨[⟨1, [], [], "alice, bob".toList⟩, ⟨2, [], [], "malice".toList⟩,
      ⟨3, [], [], "bob;carol".toList⟩], []⟩
  refine ⟨h.1.trans (by decide), ?_⟩
  have hn : ((⟨[⟨1, [], [], "alice, bob".toList⟩,
      ⟨2, [], [], "malice".toList⟩,
      ⟨3, [], [], "bob;carol".toList⟩], []⟩ : TicketDB).ticket.filter
      (fun row => decide ("alice".toList ∈ _get_cc_list row.cc))).length =
      1 := by decide
  have h2 := h.2
  rw [hn] at h2
  exact h2

end Model

end AcctMgr
